import Mathlib

/-!
# Verification of `localize_texts.py`

A shallow embedding of the string-rewriting tool in `src/localize_texts.py`:
a scanner for the call pattern `Text("…")` (the regex `TEXT_CALL_RE`), the
key slugifier, the key-uniqueness resolver, the translation-table store
(`parse_localizable` / `write_strings`) and the per-file rewrite engine
(`process_swift`).  All strings are modelled as Lean `String`s / `List Char`;
Python dicts are modelled as association lists with Python's insertion-order
update semantics; the Python `set` of existing keys is modelled as a
`List String` used only through membership.
-/

/-- ASCII whitespace, the fragment of Python's `\s` / `str.strip()` /
`str.isspace()` character class exercised by this program's data
(space, tab, newline, carriage return, vertical tab, form feed). -/
def pyIsSpace (c : Char) : Bool :=
  c = ' ' || c = '\t' || c = '\n' || c = '\r' ||
  c = Char.ofNat 11 || c = Char.ofNat 12

/-- Python's Unicode-aware `str.isalnum` restricted to the code points this
development manipulates: ASCII letters and digits, plus the Cyrillic letter
blocks U+0410–U+044F and U+0451 (`ё`) as representatives of non-Latin
alphabetic code points (for which Python's `isalnum` returns `True`).
Combining marks, punctuation, whitespace and all remaining code points are
not alphanumeric. -/
def pyIsAlnum (c : Char) : Bool :=
  (48 ≤ c.toNat && c.toNat ≤ 57) ||
  (65 ≤ c.toNat && c.toNat ≤ 90) ||
  (97 ≤ c.toNat && c.toNat ≤ 122) ||
  (0x0410 ≤ c.toNat && c.toNat ≤ 0x044F) ||
  c.toNat = 0x0451

/-- Python's `str.lower` on the code points used here: ASCII `A`–`Z` and
Cyrillic `А`–`Я` map down by the usual fixed offset of 32; everything else
is left unchanged. -/
def pyLower (c : Char) : Char :=
  if 65 ≤ c.toNat && c.toNat ≤ 90 then Char.ofNat (c.toNat + 32)
  else if 0x0410 ≤ c.toNat && c.toNat ≤ 0x042F then Char.ofNat (c.toNat + 32)
  else c

/-- Unicode canonical decomposition (NFKD) per code point, on the code points
used here: the Latin letters with acute/diaeresis used in examples decompose
into the base letter followed by a combining mark; ASCII and Cyrillic code
points are NFKD-invariant, as is everything else we touch. -/
def nfkdChar (c : Char) : List Char :=
  if c.toNat = 0xE9 then ['e', Char.ofNat 0x301]        -- é
  else if c.toNat = 0xE8 then ['e', Char.ofNat 0x300]   -- è
  else if c.toNat = 0xF6 then ['o', Char.ofNat 0x308]   -- ö
  else if c.toNat = 0xFC then ['u', Char.ofNat 0x308]   -- ü
  else [c]

/-- `str.strip()`: drop leading and trailing whitespace. -/
def pyStrip (l : List Char) : List Char :=
  ((l.dropWhile pyIsSpace).reverse.dropWhile pyIsSpace).reverse

/-- `str.strip(".")`: drop leading and trailing dots. -/
def stripDots (l : List Char) : List Char :=
  ((l.dropWhile (fun c => c = '.')).reverse.dropWhile (fun c => c = '.')).reverse

/-! ## Python dicts as association lists

Insertion order is preserved; assignment to an existing key overwrites in
place; `setdefault` inserts only when the key is absent.  Lookup takes the
first (hence, given the update discipline, the unique) binding. -/

/-- Dictionary from strings to strings. -/
abbrev Dict := List (String × String)

/-- `d[k]` lookup (`dict.get`). -/
def dget (d : Dict) (k : String) : Option String :=
  match d.find? (fun p => p.1 = k) with
  | some p => some p.2
  | none => none

/-- `d[k] = v`: overwrite in place if present, else append. -/
def dset (d : Dict) (k v : String) : Dict :=
  if d.any (fun p => p.1 = k) then
    d.map (fun p => if p.1 = k then (k, v) else p)
  else d ++ [(k, v)]

/-- `d.setdefault(k, v)`: insert only if absent. -/
def dsetdefault (d : Dict) (k v : String) : Dict :=
  if d.any (fun p => p.1 = k) then d else d ++ [(k, v)]

/-! ## Decimal rendering of naturals (Python's `str(i)` inside f-strings) -/

/-- The decimal digit character for `d < 10`. -/
def decDigit (d : Nat) : Char := Char.ofNat (48 + d)

/-- Fuel-driven decimal rendering; the fuel only bounds the recursion depth
and is irrelevant once it is at least the number being rendered. -/
def natToDecAux : Nat → Nat → List Char
  | 0, n => [decDigit (n % 10)]
  | fuel + 1, n => if n < 10 then [decDigit n] else natToDecAux fuel (n / 10) ++ [decDigit (n % 10)]

/-- Decimal rendering of a natural number, as Python's `str`. -/
def natToDec (n : Nat) : List Char := natToDecAux n n

/-! ## `slugify_key` -/

/-- The normalized character stream of `slugify_key`:
`s.strip().lower()` followed by NFKD decomposition. -/
def slugNorm (s : String) : List Char :=
  ((pyStrip s.data).map pyLower).flatMap nfkdChar

/-- The character loop of `slugify_key`: keep alphanumeric characters,
collapse each run of non-alphanumeric characters into a single `.`
(`prev_dot` tracks whether the previous emitted character was a dot). -/
def slugCollapse : List Char → Bool → List Char
  | [], _ => []
  | c :: t, prevDot =>
    if pyIsAlnum c then c :: slugCollapse t false
    else if prevDot then slugCollapse t true
    else '.' :: slugCollapse t true

/-- The key before the 60-character cap: collapsed stream, stripped of
leading/trailing dots, with the `"text"` fallback when empty. -/
def slugPreCap (s : String) : List Char :=
  if stripDots (slugCollapse (slugNorm s) false) = [] then "text".data
  else stripDots (slugCollapse (slugNorm s) false)

/-- `slugify_key`: derive a dotted lowercase key from a natural-language
string (strip/lower, NFKD, keep alnum, collapse other runs to `.`,
strip dots, fall back to `"text"`, cap at 60 characters trimming a
trailing separator introduced by the cut). -/
def slugify_key (s : String) : String :=
  if 60 < (slugPreCap s).length then ⟨stripDots ((slugPreCap s).take 60)⟩
  else ⟨slugPreCap s⟩

/-! ## `generate_unique_key` -/

/-- The candidate key `f"{base}.{i}"`. -/
def mkNumKey (base : String) (i : Nat) : String :=
  base ++ "." ++ ⟨natToDec i⟩

/-- The `while key in existing_keys` loop of `generate_unique_key`, with a
fuel argument making the recursion structural; `existing.length + 1` fuel is
enough, because the candidates `base.2`, `base.3`, … are pairwise distinct. -/
def genAux (base : String) (existing : List String) : Nat → Nat → String
  | 0, i => mkNumKey base i
  | fuel + 1, i => if mkNumKey base i ∈ existing then genAux base existing fuel (i + 1) else mkNumKey base i

/-- `generate_unique_key(base, existing_keys)`: return `base` when free,
otherwise the first `base.2`, `base.3`, … absent from `existing_keys`. -/
def generate_unique_key (base : String) (existing : List String) : String :=
  if base ∈ existing then genAux base existing (existing.length + 1) 2 else base

/-! ## Literal escaping codec -/

/-- The source-literal decode path (`bytes(s,"utf-8").decode("unicode_escape")`),
on the escape fragment this program can ever feed it: the standard
single-character escapes are interpreted, and an unrecognized escape keeps
its backslash (which is exactly how `unicode_escape` treats e.g. the Swift
interpolation marker `\(`).  Numeric (`\x`, `\u`, octal) escapes and the
Latin-1 byte decoding of `unicode_escape` lie outside the fragment used by
the claims and are not modelled. -/
def unescapeChars : List Char → List Char
  | [] => []
  | '\\' :: c :: rest =>
    if c = '\\' then '\\' :: unescapeChars rest
    else if c = Char.ofNat 39 then Char.ofNat 39 :: unescapeChars rest
    else if c = '"' then '"' :: unescapeChars rest
    else if c = 'a' then Char.ofNat 7 :: unescapeChars rest
    else if c = 'b' then Char.ofNat 8 :: unescapeChars rest
    else if c = 'f' then Char.ofNat 12 :: unescapeChars rest
    else if c = 'n' then '\n' :: unescapeChars rest
    else if c = 'r' then '\r' :: unescapeChars rest
    else if c = 't' then '\t' :: unescapeChars rest
    else if c = 'v' then Char.ofNat 11 :: unescapeChars rest
    else '\\' :: c :: unescapeChars rest
  | c :: rest => c :: unescapeChars rest

/-- `unescape` on strings. -/
def unescape (s : String) : String := ⟨unescapeChars s.data⟩

/-- `escape_for_strings`: escape backslashes, then double quotes (two
sequential `str.replace` passes, exactly as in the source). -/
def escape_for_strings (s : String) : String :=
  let p1 := s.data.flatMap (fun c => if c = '\\' then ['\\', '\\'] else [c])
  let p2 := p1.flatMap (fun c => if c = '"' then ['\\', '"'] else [c])
  ⟨p2⟩

/-! ## `should_skip_literal` -/

/-- Python's substring test `needle in hay`. -/
def containsSub (n : List Char) : List Char → Bool
  | [] => n.isEmpty
  | c :: t => n.isPrefixOf (c :: t) || containsSub n t

/-- `should_skip_literal`: skip literals containing the Swift interpolation
marker `\(` or a printf-style placeholder `%@` / `%d` / `%f`. -/
def should_skip_literal (lit : List Char) : Bool :=
  containsSub ['\\', '('] lit ||
  containsSub ['%', '@'] lit || containsSub ['%', 'd'] lit || containsSub ['%', 'f'] lit

/-! ## The regex `TEXT_CALL_RE`

`Text\(\s*"((?:[^"\\]|\\.)+)"\s*\)(?!\s*\.localized)`

The pattern is deterministic: the literal body `(?:[^"\\]|\\.)+` is a greedy
run of elements, each either a character other than `"`/`\`, or a backslash
paired with any character except newline; no backtracking can produce a
different split, because a shorter parse always leaves a non-`"` character
where the closing quote is required. -/

/-- Greedy parse of `(?:[^"\\]|\\.)*`: returns the consumed body and the
rest.  Stops at a bare `"`, at a `\` before a newline (the regex `.` does
not match newline), or at a trailing lone `\`. -/
def litBody : List Char → List Char × List Char
  | [] => ([], [])
  | c :: rest =>
    if c = '"' then ([], c :: rest)
    else if c = '\\' then
      match rest with
      | [] => ([], c :: rest)
      | d :: rest2 =>
        if d = '\n' then ([], c :: d :: rest2)
        else ('\\' :: d :: (litBody rest2).1, (litBody rest2).2)
    else (c :: (litBody rest).1, (litBody rest).2)

/-- The negative lookahead `(?!\s*\.localized)`, positively: does
`\s*\.localized` match here? -/
def lookLocalized (l : List Char) : Bool :=
  ".localized".data.isPrefixOf (l.dropWhile pyIsSpace)

/-- The part of `TEXT_CALL_RE` after the literal `Text(`:
`\s*"((?:[^"\\]|\\.)+)"\s*\)(?!\s*\.localized)`.  On success returns
(consumed text after `Text(`, the group, the rest). -/
def matchAfterHead (r0 : List Char) : Option (List Char × List Char × List Char) :=
  match r0.dropWhile pyIsSpace with
  | '"' :: r2 =>
    if (litBody r2).1 = [] then none
    else
      match (litBody r2).2 with
      | '"' :: r4 =>
        match r4.dropWhile pyIsSpace with
        | ')' :: r6 =>
          if lookLocalized r6 then none
          else some (r0.takeWhile pyIsSpace ++ '"' :: (litBody r2).1 ++ '"' ::
              r4.takeWhile pyIsSpace ++ [')'], (litBody r2).1, r6)
        | _ => none
      | _ => none
  | _ => none

/-- A match of `TEXT_CALL_RE` at the start of `l`: on success returns
(the whole match `m.group(0)`, the group `m.group(1)`, the rest of `l`). -/
def matchAt (l : List Char) : Option (List Char × List Char × List Char) :=
  if "Text(".data.isPrefixOf l then
    match matchAfterHead (l.drop 5) with
    | some (w, body, rest) => some ("Text(".data ++ w, body, rest)
    | none => none
  else none

/-! ## The rewrite engine `process_swift` -/

/-- The run-global mutable state threaded through the rewrite:
the set of keys in use and the pending additions. -/
structure PState where
  existing_keys : List String
  additions : Dict
deriving DecidableEq

/-- `existing_keys.add(key)` (a Python set: membership only). -/
def addKey (ek : List String) (k : String) : List String :=
  if k ∈ ek then ek else ek ++ [k]

/-- The replacement text `f'Text("{key}".localized)'`. -/
def replText (k : String) : List Char :=
  "Text(\"".data ++ k.data ++ "\".localized)".data

/-- The key-minting path of the `repl` callback: derive the base via the
slugifier, resolve it against the key set, insert the new key into the key
set, and record `additions.setdefault(key, literal)`. -/
def mintKey (body : List Char) (st : PState) : List Char × PState :=
  (replText (generate_unique_key (slugify_key ⟨unescapeChars body⟩) st.existing_keys),
   ⟨addKey st.existing_keys
      (generate_unique_key (slugify_key ⟨unescapeChars body⟩) st.existing_keys),
    dsetdefault st.additions
      (generate_unique_key (slugify_key ⟨unescapeChars body⟩) st.existing_keys)
      ⟨unescapeChars body⟩⟩)

/-- The `repl` callback of `process_swift`, for one matched occurrence:
`whole` is `m.group(0)`, `body` is `m.group(1)`.  Skips interpolated or
placeholder-bearing literals; otherwise reuses the key of an already-known
value (Python's `if not key:` also treats an empty-string key as absent),
or mints a new key, marks it used, and records the addition. -/
def replOcc (vk : Dict) (whole body : List Char) (st : PState) : List Char × PState :=
  if should_skip_literal (unescapeChars body) then (whole, st)
  else
    match dget vk ⟨unescapeChars body⟩ with
    | some k => if k = "" then mintKey body st else (replText k, st)
    | none => mintKey body st

/-- `TEXT_CALL_RE.sub(repl, content)`: left-to-right scan, replacing each
non-overlapping match and copying every other character.  The fuel makes
the recursion structural; any fuel `≥ l.length` gives the same result
because every step consumes at least one character. -/
def scanGo (vk : Dict) : Nat → List Char → PState → List Char × PState
  | 0, l, st => (l, st)
  | fuel + 1, l, st =>
    match l with
    | [] => ([], st)
    | c :: cs =>
      match matchAt (c :: cs) with
      | some (w, b, rest) =>
        ((replOcc vk w b st).1 ++ (scanGo vk fuel rest (replOcc vk w b st).2).1,
         (scanGo vk fuel rest (replOcc vk w b st).2).2)
      | none =>
        (c :: (scanGo vk fuel cs st).1, (scanGo vk fuel cs st).2)

/-- `process_swift(content, val_to_key, existing_keys, additions)`: returns
the rewritten text together with the final key set and additions map (the
Python function mutates the latter two in place). -/
def process_swift (content : String) (vk : Dict) (ek : List String) (ad : Dict) :
    String × List String × Dict :=
  let (out, st) := scanGo vk content.data.length content.data ⟨ek, ad⟩
  (⟨out⟩, st.existing_keys, st.additions)

/-! ## Translation table store: `parse_localizable` and `write_strings` -/

/-- A match of `LOC_LINE_RE` against one line (without its trailing newline;
the regex's closing `\s*$` absorbs it):
`^\s*"((?:[^"\\]|\\.)+)"\s*=\s*"((?:[^"\\]|\\.)+)"\s*;\s*$`. -/
def parseLocLine (line : List Char) : Option (String × String) :=
  match line.dropWhile pyIsSpace with
  | '"' :: r2 =>
    let (k, r3) := litBody r2
    if k = [] then none
    else
      match r3 with
      | '"' :: r4 =>
        match r4.dropWhile pyIsSpace with
        | '=' :: r5 =>
          match r5.dropWhile pyIsSpace with
          | '"' :: r6 =>
            let (v, r7) := litBody r6
            if v = [] then none
            else
              match r7 with
              | '"' :: r8 =>
                match r8.dropWhile pyIsSpace with
                | ';' :: r9 => if r9.dropWhile pyIsSpace = [] then some (⟨k⟩, ⟨v⟩) else none
                | _ => none
              | _ => none
          | _ => none
        | _ => none
      | _ => none
  | _ => none

/-- One line of the `parse_localizable` loop: on a match, assign
`key_to_val[k] = v` unconditionally and `val_to_key.setdefault(v, k)`;
otherwise ignore the line. -/
def parseStep (acc : Dict × Dict) (line : String) : Dict × Dict :=
  match parseLocLine line.data with
  | some (k, v) => (dset acc.1 k v, dsetdefault acc.2 v k)
  | none => acc

/-- `parse_localizable(path)`: `none` models a `None` or nonexistent path
(two empty mappings); otherwise the file is the given list of lines. -/
def parse_localizable : Option (List String) → Dict × Dict
  | none => ([], [])
  | some lines => lines.foldl parseStep ([], [])

/-- Code-point lexicographic comparison of character lists (Python's `<=`
on strings, the order used by `sorted`). -/
def lexLE : List Char → List Char → Bool
  | [], _ => true
  | _ :: _, [] => false
  | a :: s, b :: t => if a.toNat < b.toNat then true else if b.toNat < a.toNat then false else lexLE s t

/-- Python's `<=` on strings. -/
def strLE (a b : String) : Bool := lexLE a.data b.data

/-- One output line of `write_strings`:
`f"\"{escape_for_strings(k)}\" = \"{escape_for_strings(v)}\";\n"`. -/
def locLine (k v : String) : String :=
  "\"" ++ escape_for_strings k ++ "\" = \"" ++ escape_for_strings v ++ "\";\n"

/-- The keys of the additions map in `sorted` order. -/
def sortedKeys (additions : Dict) : List String :=
  (additions.map Prod.fst).insertionSort (fun a b => strLE a b = true)

/-- `write_strings(path, key_to_val, additions)` as a function from the
target file's current content to its new content: no-op when there is
nothing to add, otherwise append (a blank separator line first when the
file is non-empty, i.e. `path.stat().st_size > 0`) one line per addition
in sorted key order.  (`key_to_val` is unused by the Python function.) -/
def write_strings (existing : String) (additions : Dict) : String :=
  if additions = [] then existing
  else
    existing ++ (if existing = "" then "" else "\n") ++
      String.join ((sortedKeys additions).map (fun k => locLine k ((dget additions k).getD "")))

/-! ## Properties of the decimal renderer -/

theorem natToDecAux_fuel : ∀ n f g, n ≤ f → n ≤ g → natToDecAux f n = natToDecAux g n := by
  intro n
  induction n using Nat.strong_induction_on with
  | _ n ih =>
    intro f g hf hg
    match f, g with
    | 0, 0 => rfl
    | 0, g + 1 =>
      have : n = 0 := Nat.le_zero.mp hf
      subst this
      simp [natToDecAux]
    | f + 1, 0 =>
      have : n = 0 := Nat.le_zero.mp hg
      subst this
      simp [natToDecAux]
    | f + 1, g + 1 =>
      simp only [natToDecAux]
      split
      · rfl
      · rename_i hn
        have hlt : n / 10 < n := Nat.div_lt_self (by omega) (by omega)
        rw [ih (n / 10) hlt f g (by omega) (by omega)]

theorem natToDec_lt_ten {n : Nat} (h : n < 10) : natToDec n = [decDigit n] := by
  match n, h with
  | 0, _ => rfl
  | n + 1, h => simp [natToDec, natToDecAux, h]

theorem natToDec_ge_ten {n : Nat} (h : 10 ≤ n) :
    natToDec n = natToDec (n / 10) ++ [decDigit (n % 10)] := by
  match n, h with
  | n + 1, h =>
    simp only [natToDec, natToDecAux, Nat.not_lt.mpr h, if_false]
    rw [natToDecAux_fuel ((n + 1) / 10) n ((n + 1) / 10) (by omega) (Nat.le_refl _)]

theorem natToDec_ne_nil (n : Nat) : natToDec n ≠ [] := by
  by_cases h : n < 10
  · rw [natToDec_lt_ten h]; simp
  · rw [natToDec_ge_ten (by omega)]; simp

theorem decDigit_inj : ∀ a, a < 10 → ∀ b, b < 10 → decDigit a = decDigit b → a = b := by
  decide

theorem snoc_inj {α : Type} {a b : List α} {x y : α} (h : a ++ [x] = b ++ [y]) :
    a = b ∧ x = y := by
  have h2 := congrArg List.reverse h
  simp only [List.reverse_append, List.reverse_cons, List.reverse_nil, List.nil_append,
    List.singleton_append, List.cons.injEq] at h2
  exact ⟨List.reverse_injective h2.2, h2.1⟩

theorem natToDec_inj : ∀ m n, natToDec m = natToDec n → m = n := by
  intro m
  induction m using Nat.strong_induction_on with
  | _ m ih =>
    intro n h
    by_cases hm : m < 10 <;> by_cases hn : n < 10
    · rw [natToDec_lt_ten hm, natToDec_lt_ten hn] at h
      simp only [List.cons.injEq, and_true] at h
      exact decDigit_inj m hm n hn h
    · rw [natToDec_lt_ten hm, @natToDec_ge_ten n (by omega)] at h
      exfalso
      cases hx : natToDec (n / 10) with
      | nil => exact absurd hx (natToDec_ne_nil (n / 10))
      | cons a l =>
        rw [hx] at h
        have := congrArg List.length h
        simp at this
    · rw [@natToDec_ge_ten m (by omega), natToDec_lt_ten hn] at h
      exfalso
      cases hx : natToDec (m / 10) with
      | nil => exact absurd hx (natToDec_ne_nil (m / 10))
      | cons a l =>
        rw [hx] at h
        have := congrArg List.length h
        simp at this
    · rw [@natToDec_ge_ten m (by omega), @natToDec_ge_ten n (by omega)] at h
      obtain ⟨h1, h2⟩ := snoc_inj h
      have hd : m / 10 = n / 10 :=
        ih (m / 10) (Nat.div_lt_self (by omega) (by omega)) (n / 10) h1
      have hm10 : m % 10 = n % 10 :=
        decDigit_inj _ (Nat.mod_lt _ (by omega)) _ (Nat.mod_lt _ (by omega)) h2
      omega

theorem mkNumKey_inj {base : String} {i j : Nat} (h : mkNumKey base i = mkNumKey base j) :
    i = j := by
  have hd := congrArg String.data h
  simp only [mkNumKey, String.data_append, List.append_assoc] at hd
  have h2 := List.append_cancel_left hd
  have h3 := List.append_cancel_left h2
  exact natToDec_inj i j h3

/-! ## The uniqueness resolver: supporting lemmas -/

theorem genAux_mem {base : String} {ex : List String} :
    ∀ fuel i, genAux base ex fuel i ∈ ex → ∀ j, j ≤ fuel → mkNumKey base (i + j) ∈ ex := by
  intro fuel
  induction fuel with
  | zero =>
    intro i h j hj
    have : j = 0 := Nat.le_zero.mp hj
    subst this
    simpa [genAux] using h
  | succ fuel ih =>
    intro i h j hj
    simp only [genAux] at h
    split at h
    · rename_i hmem
      match j with
      | 0 => simpa using hmem
      | j + 1 =>
        have := ih (i + 1) h j (by omega)
        have harr : i + 1 + j = i + (j + 1) := by omega
        rwa [harr] at this
    · rename_i hmem
      match j with
      | 0 => simpa using h
      | j + 1 => exact absurd h hmem

theorem genAux_first {base : String} {ex : List String} :
    ∀ fuel i, ∃ d, genAux base ex fuel i = mkNumKey base (i + d) ∧
      ∀ e, e < d → mkNumKey base (i + e) ∈ ex := by
  intro fuel
  induction fuel with
  | zero => intro i; exact ⟨0, rfl, by omega⟩
  | succ fuel ih =>
    intro i
    simp only [genAux]
    split
    · rename_i hmem
      obtain ⟨d, hd, hlt⟩ := ih (i + 1)
      refine ⟨d + 1, ?_, ?_⟩
      · rw [hd]; congr 1; omega
      · intro e he
        match e with
        | 0 => simpa using hmem
        | e + 1 =>
          have := hlt e (by omega)
          have harr : i + 1 + e = i + (e + 1) := by omega
          rwa [harr] at this
    · exact ⟨0, rfl, by omega⟩

/-- C10: `generate_unique_key` always terminates (it is a total function of
this embedding, with fuel `existing.length + 1` proven sufficient by this
very theorem) and its result is never a member of the given key set. -/
theorem generate_unique_key_not_mem (base : String) (ex : List String) :
    generate_unique_key base ex ∉ ex := by
  unfold generate_unique_key
  split
  · rename_i hbase
    intro hmem
    have hall := @genAux_mem base ex (ex.length + 1) 2 hmem
    have hsub : ((List.range (ex.length + 2)).map (fun j => mkNumKey base (2 + j))) ⊆ ex := by
      intro x hx
      simp only [List.mem_map, List.mem_range] at hx
      obtain ⟨j, hj, rfl⟩ := hx
      exact hall j (by omega)
    have hnodup : ((List.range (ex.length + 2)).map (fun j => mkNumKey base (2 + j))).Nodup := by
      refine List.Nodup.map ?_ (List.nodup_range _)
      intro a b hab
      have := mkNumKey_inj hab
      omega
    have hlen := (hnodup.subperm hsub).length_le
    simp at hlen
  · rename_i hbase
    exact hbase

/-- C3: the uniqueness resolver returns `base` unchanged when `base` is not
among the existing keys; otherwise it returns the first candidate
`base.2`, `base.3`, … (decimal suffix starting at 2) that is absent from
the existing keys.  (Non-mutation of the key set is inherent in this pure
embedding: `generate_unique_key` only reads its argument.) -/
theorem generate_unique_key_spec (base : String) (ex : List String) :
    (base ∉ ex → generate_unique_key base ex = base) ∧
    (base ∈ ex → ∃ n, 2 ≤ n ∧ generate_unique_key base ex = mkNumKey base n ∧
      mkNumKey base n ∉ ex ∧ ∀ m, 2 ≤ m → m < n → mkNumKey base m ∈ ex) := by
  constructor
  · intro hbase
    unfold generate_unique_key
    simp [hbase]
  · intro hbase
    have hnot := generate_unique_key_not_mem base ex
    unfold generate_unique_key at hnot ⊢
    rw [if_pos hbase] at hnot ⊢
    obtain ⟨d, hd, hlt⟩ := @genAux_first base ex (ex.length + 1) 2
    refine ⟨2 + d, by omega, hd, hd ▸ hnot, ?_⟩
    intro m hm2 hmd
    have := hlt (m - 2) (by omega)
    have harr : 2 + (m - 2) = m := by omega
    rwa [harr] at this

/-- Witness for C3 at the spec's own example: existing key `greeting`,
base `greeting` resolves to `greeting.2`. -/
theorem generate_unique_key_spec_witness :
    "greeting" ∈ ["greeting"] ∧
    ∃ n, 2 ≤ n ∧ generate_unique_key "greeting" ["greeting"] = mkNumKey "greeting" n ∧
      mkNumKey "greeting" n ∉ ["greeting"] ∧
      ∀ m, 2 ≤ m → m < n → mkNumKey "greeting" m ∈ ["greeting"] :=
  ⟨by decide, (generate_unique_key_spec "greeting" ["greeting"]).2 (by decide)⟩

/-! ## Slugifier properties -/

theorem dropWhile_head_not {α : Type} (p : α → Bool) (l : List α) :
    ∀ c, (l.dropWhile p).head? = some c → p c = false := by
  induction l with
  | nil => intro c h; simp at h
  | cons a t ih =>
    intro c h
    cases hp : p a with
    | true =>
      rw [List.dropWhile_cons, if_pos hp] at h
      exact ih c h
    | false =>
      rw [List.dropWhile_cons, if_neg (by simp [hp])] at h
      simp only [List.head?_cons, Option.some.injEq] at h
      subst h
      exact hp

theorem stripDots_length_le (l : List Char) : (stripDots l).length ≤ l.length := by
  unfold stripDots
  simp only [List.length_reverse]
  calc ((l.dropWhile (fun c => c = '.')).reverse.dropWhile (fun c => c = '.')).length
      ≤ (l.dropWhile (fun c => c = '.')).reverse.length :=
        (List.dropWhile_sublist (fun c => c = '.')).length_le
    _ ≤ l.length := by
        simpa using
          ((List.dropWhile_sublist (fun c => c = '.')).length_le :
            (List.dropWhile (fun c => c = '.') l).length ≤ l.length)

theorem stripDots_getLast?_ne (l : List Char) : (stripDots l).getLast? ≠ some '.' := by
  unfold stripDots
  rw [List.getLast?_reverse]
  intro h
  have := dropWhile_head_not (fun c => c = '.') (l.dropWhile (fun c => c = '.')).reverse '.' h
  simp at this

theorem stripDots_subset (l : List Char) : stripDots l ⊆ l := by
  unfold stripDots
  intro c hc
  simp only [List.mem_reverse] at hc
  have h2 := (List.dropWhile_sublist (fun c => c = '.')).subset hc
  simp only [List.mem_reverse] at h2
  exact (List.dropWhile_sublist (fun c => c = '.')).subset h2

theorem slugCollapse_chars : ∀ (l : List Char) (b : Bool) (c : Char),
    c ∈ slugCollapse l b → pyIsAlnum c = true ∨ c = '.' := by
  intro l
  induction l with
  | nil => intro b c h; simp [slugCollapse] at h
  | cons a t ih =>
    intro b c h
    simp only [slugCollapse] at h
    by_cases ha : pyIsAlnum a
    · rw [if_pos ha] at h
      rcases List.mem_cons.mp h with h | h
      · exact Or.inl (h ▸ ha)
      · exact ih false c h
    · rw [if_neg ha] at h
      by_cases hb : b
      · rw [if_pos hb] at h; exact ih true c h
      · rw [if_neg hb] at h
        rcases List.mem_cons.mp h with h | h
        · exact Or.inr h
        · exact ih true c h

theorem slugCollapse_all_non : ∀ (l : List Char), (∀ c ∈ l, pyIsAlnum c = false) →
    slugCollapse l true = [] ∧ slugCollapse l false = if l = [] then [] else ['.'] := by
  intro l
  induction l with
  | nil => intro _; exact ⟨rfl, rfl⟩
  | cons a t ih =>
    intro h
    have ha : pyIsAlnum a = false := h a (List.mem_cons_self a t)
    have ht := ih (fun c hc => h c (List.mem_cons_of_mem a hc))
    constructor
    · simp only [slugCollapse, ha, if_neg, Bool.false_eq_true, if_true]
      simpa using ht.1
    · simp only [slugCollapse, ha]
      simp only [Bool.false_eq_true, if_false, List.cons.injEq]
      simpa using ht.1

/-- C8: the slugifier (a pure function, hence deterministic) maps
`"Example Text!"` to `"example.text"` and `""` to the fallback `"text"`;
and whenever the normalized pre-cap key exceeds 60 characters, the final
key has length at most 60 and does not end with the `.` separator. -/
theorem slugify_key_spec :
    slugify_key "Example Text!" = "example.text" ∧
    slugify_key "" = "text" ∧
    ∀ s : String, 60 < (slugPreCap s).length →
      (slugify_key s).length ≤ 60 ∧ (slugify_key s).data.getLast? ≠ some '.' := by
  refine ⟨by decide, by decide, ?_⟩
  intro s h
  unfold slugify_key
  rw [if_pos h]
  refine ⟨?_, stripDots_getLast?_ne _⟩
  show (stripDots ((slugPreCap s).take 60)).length ≤ 60
  calc (stripDots ((slugPreCap s).take 60)).length
      ≤ ((slugPreCap s).take 60).length := stripDots_length_le _
    _ ≤ 60 := by simp

/-- Witness for C8's universal part at a 70-character input. -/
theorem slugify_key_spec_witness :
    60 < (slugPreCap "aaaaaaaaaaaaaaaaaaaaaaaaaaaaaaaaaaaaaaaaaaaaaaaaaaaaaaaaaaaaaaaaaaaaaa").length ∧
    (slugify_key "aaaaaaaaaaaaaaaaaaaaaaaaaaaaaaaaaaaaaaaaaaaaaaaaaaaaaaaaaaaaaaaaaaaaaa").length ≤ 60 ∧
    (slugify_key "aaaaaaaaaaaaaaaaaaaaaaaaaaaaaaaaaaaaaaaaaaaaaaaaaaaaaaaaaaaaaaaaaaaaaa").data.getLast?
      ≠ some '.' :=
  ⟨by decide, slugify_key_spec.2.2 _ (by decide)⟩

/-- C9 counterexample: the Cyrillic letter `я` is not an ASCII letter or
digit (and is NFKD-invariant), yet Python's Unicode-aware `isalnum` keeps
it, so `slugify_key "я"` is `"я"`, not the claimed fallback `"text"`. -/
theorem slugify_key_cyrillic_kept :
    slugify_key "я" = "я" ∧ ("я" : String) ≠ "text" :=
  ⟨by decide, by decide⟩

/-- Every character of a produced key is alphanumeric or the `.` separator. -/
theorem slugify_key_chars (s : String) (c : Char) (hc : c ∈ (slugify_key s).data) :
    pyIsAlnum c = true ∨ c = '.' := by
  unfold slugify_key at hc
  have hpre : ∀ d ∈ slugPreCap s, pyIsAlnum d = true ∨ d = '.' := by
    intro d hd
    have htext : ∀ e ∈ "text".data, pyIsAlnum e = true := by decide
    unfold slugPreCap at hd
    split at hd
    · exact Or.inl (htext d hd)
    · exact slugCollapse_chars _ false d (stripDots_subset _ hd)
  split at hc
  · dsimp only at hc
    exact hpre c (List.take_subset 60 _ (stripDots_subset _ hc))
  · dsimp only at hc
    exact hpre c hc

/-- C9 (amended): the slugifier drops exactly the characters that are not
alphanumeric in Python's Unicode sense (`str.isalnum`), collapsing them
into `.` separators — every character of a produced key is alphanumeric or
`.` — and an input none of whose normalized characters is alphanumeric
yields the fallback key `"text"`. -/
theorem slugify_key_drops_non_alnum :
    (∀ (s : String) (c : Char), c ∈ (slugify_key s).data →
      pyIsAlnum c = true ∨ c = '.') ∧
    (∀ s : String, (∀ c ∈ slugNorm s, pyIsAlnum c = false) → slugify_key s = "text") := by
  constructor
  · exact slugify_key_chars
  · intro s h
    have hc := (slugCollapse_all_non (slugNorm s) h).2
    have hsd : stripDots (slugCollapse (slugNorm s) false) = [] := by
      rw [hc]
      by_cases hs : slugNorm s = []
      · rw [if_pos hs]; rfl
      · rw [if_neg hs]; rfl
    have hpre : slugPreCap s = "text".data := by
      unfold slugPreCap
      rw [hsd]
      simp
    unfold slugify_key
    rw [hpre]
    rw [if_neg (by decide)]

/-- Witness for C9's amended universal part: an input of pure punctuation
has no alphanumeric normalized character and slugifies to `"text"`. -/
theorem slugify_key_drops_non_alnum_witness :
    (∀ c ∈ slugNorm "?!", pyIsAlnum c = false) ∧ slugify_key "?!" = "text" :=
  ⟨by decide, slugify_key_drops_non_alnum.2 "?!" (by decide)⟩

/-! ## Rewrite-engine claims -/

/-- C5: for every matched occurrence whose decoded logical value contains
the interpolation marker `\(` or one of the placeholders `%@`, `%d`, `%f`,
the per-occurrence handler returns the matched text itself (byte-identical)
and leaves the state — key set and pending additions — unchanged (the reuse
map `vk` is read-only throughout by construction); in particular the
two-skip example source text passes through `process_swift` untouched with
nothing recorded. -/
theorem replOcc_skip_spec :
    (∀ (vk : Dict) (whole body : List Char) (st : PState),
      (containsSub ['\\', '('] (unescapeChars body) = true ∨
       containsSub ['%', '@'] (unescapeChars body) = true ∨
       containsSub ['%', 'd'] (unescapeChars body) = true ∨
       containsSub ['%', 'f'] (unescapeChars body) = true) →
      replOcc vk whole body st = (whole, st)) ∧
    process_swift "Text(\"Welcome, \\(name)\")\nText(\"Score: %d\")" [] [] [] =
      ("Text(\"Welcome, \\(name)\")\nText(\"Score: %d\")", [], []) := by
  constructor
  · intro vk whole body st h
    have hskip : should_skip_literal (unescapeChars body) = true := by
      unfold should_skip_literal
      rcases h with h | h | h | h <;> simp [h]
    unfold replOcc
    rw [if_pos hskip]
  · decide

/-- Witness for C5's universal part: the occurrence `Text("Score: %d")`
(whole match and body as produced by the pattern) is left as-is. -/
theorem replOcc_skip_spec_witness :
    (containsSub ['\\', '('] (unescapeChars "Score: %d".data) = true ∨
     containsSub ['%', '@'] (unescapeChars "Score: %d".data) = true ∨
     containsSub ['%', 'd'] (unescapeChars "Score: %d".data) = true ∨
     containsSub ['%', 'f'] (unescapeChars "Score: %d".data) = true) ∧
    replOcc [] "Text(\"Score: %d\")".data "Score: %d".data ⟨[], []⟩ =
      ("Text(\"Score: %d\")".data, ⟨[], []⟩) :=
  ⟨Or.inr (Or.inr (Or.inl (by decide))),
   replOcc_skip_spec.1 [] "Text(\"Score: %d\")".data "Score: %d".data ⟨[], []⟩
     (Or.inr (Or.inr (Or.inl (by decide))))⟩

/-- C4: when the pre-existing value-to-key map already contains the decoded
logical value of a non-skipped occurrence (with the non-empty key every
parsed table produces — Python's `if not key:` would treat `""` as absent),
the handler rewrites the occurrence to use that key and changes nothing:
no new key is minted, nothing is added to the pending additions, and the
key set is untouched; in particular, with existing entry
`"hello" = "Hi there";`, `Text("Hi there")` is rewritten to use `hello`. -/
theorem replOcc_reuse_spec :
    (∀ (vk : Dict) (whole body : List Char) (st : PState) (k : String),
      should_skip_literal (unescapeChars body) = false →
      dget vk ⟨unescapeChars body⟩ = some k → k ≠ "" →
      replOcc vk whole body st = (replText k, st)) ∧
    process_swift "Text(\"Hi there\")" [("Hi there", "hello")] ["hello"] [] =
      ("Text(\"hello\".localized)", ["hello"], []) := by
  constructor
  · intro vk whole body st k hskip hget hk
    unfold replOcc
    rw [if_neg (by simp [hskip])]
    rw [hget]
    simp [hk]
  · decide

/-- Witness for C4's universal part at the spec's own example. -/
theorem replOcc_reuse_spec_witness :
    should_skip_literal (unescapeChars "Hi there".data) = false ∧
    dget [("Hi there", "hello")] ⟨unescapeChars "Hi there".data⟩ = some "hello" ∧
    "hello" ≠ "" ∧
    replOcc [("Hi there", "hello")] "Text(\"Hi there\")".data "Hi there".data ⟨["hello"], []⟩ =
      (replText "hello", ⟨["hello"], []⟩) :=
  ⟨by decide, by decide, by decide,
   replOcc_reuse_spec.1 [("Hi there", "hello")] "Text(\"Hi there\")".data "Hi there".data
     ⟨["hello"], []⟩ "hello" (by decide) (by decide) (by decide)⟩

set_option maxRecDepth 10000 in
/-- C1 counterexample: on the claimed end-to-end scenario (empty existing
table, source `Text("Save")` twice and `Text("Cancel")` once) the engine
does NOT reuse the first key for the duplicate — `val_to_key` is never
updated during a run — so the pending-additions map ends with three
entries, not the claimed two. -/
theorem process_swift_duplicate_counterexample :
    (process_swift "Text(\"Save\")\nText(\"Save\")\nText(\"Cancel\")\n" [] [] []).2.2.length = 3 ∧
    ¬ (process_swift "Text(\"Save\")\nText(\"Save\")\nText(\"Cancel\")\n" [] [] []).2.2.length = 2 := by
  constructor
  · decide
  · decide

set_option maxRecDepth 10000 in
/-- C1 (amended): on that scenario the engine mints `save` for the first
occurrence, a fresh suffixed key `save.2` for the duplicate occurrence
(the in-run reuse map is not consulted for values minted in the same run),
and `cancel` for the third, ending with exactly three pending additions. -/
theorem process_swift_duplicate_spec :
    process_swift "Text(\"Save\")\nText(\"Save\")\nText(\"Cancel\")\n" [] [] [] =
      ("Text(\"save\".localized)\nText(\"save.2\".localized)\nText(\"cancel\".localized)\n",
       ["save", "save.2", "cancel"],
       [("save", "Save"), ("save.2", "Save"), ("cancel", "Cancel")]) := by
  decide

/-! ## Dictionary lemmas -/

theorem dget_cons (p : String × String) (t : Dict) (k : String) :
    dget (p :: t) k = if p.1 = k then some p.2 else dget t k := by
  by_cases hp : p.1 = k
  · rw [if_pos hp]
    unfold dget
    rw [List.find?_cons_of_pos _ (by simp [hp])]
  · rw [if_neg hp]
    unfold dget
    rw [List.find?_cons_of_neg _ (by simp [hp])]

theorem dget_append_of_none {d : Dict} {k : String} (h : dget d k = none) (e : Dict) :
    dget (d ++ e) k = dget e k := by
  induction d with
  | nil => simp
  | cons p t ih =>
    rw [dget_cons] at h
    rw [List.cons_append, dget_cons]
    by_cases hp : p.1 = k
    · rw [if_pos hp] at h; exact absurd h (by simp)
    · rw [if_neg hp] at h ⊢; exact ih h

theorem dget_append_of_some {d : Dict} {k v : String} (h : dget d k = some v) (e : Dict) :
    dget (d ++ e) k = some v := by
  induction d with
  | nil => simp [dget] at h
  | cons p t ih =>
    rw [dget_cons] at h
    rw [List.cons_append, dget_cons]
    by_cases hp : p.1 = k
    · rw [if_pos hp] at h ⊢; exact h
    · rw [if_neg hp] at h ⊢; exact ih h

theorem dget_none_iff_any {d : Dict} {k : String} :
    dget d k = none ↔ d.any (fun p => p.1 = k) = false := by
  induction d with
  | nil => simp [dget]
  | cons p t ih =>
    rw [dget_cons, List.any_cons]
    by_cases hp : p.1 = k
    · simp [hp]
    · simp [hp, ih]

theorem dget_dset_self (d : Dict) (k v : String) : dget (dset d k v) k = some v := by
  unfold dset
  split
  · rename_i hany
    induction d with
    | nil => simp at hany
    | cons p t ih =>
      rw [List.map_cons, dget_cons]
      by_cases hp : p.1 = k
      · simp [hp]
      · rw [if_neg hp, if_neg (by simpa using hp)]
        rw [List.any_cons] at hany
        exact ih (by simpa [hp] using hany)
  · rename_i hany
    have hnone : dget d k = none := dget_none_iff_any.mpr (Bool.eq_false_iff.mpr hany)
    rw [dget_append_of_none hnone, dget_cons]
    simp

theorem dget_dsetdefault_of_some {d : Dict} {x : String} {w : String} (h : dget d x = some w)
    (k v : String) : dget (dsetdefault d k v) x = some w := by
  unfold dsetdefault
  split
  · exact h
  · exact dget_append_of_some h _

theorem dget_dsetdefault_self_of_none {d : Dict} {k : String} (h : dget d k = none)
    (v : String) : dget (dsetdefault d k v) k = some v := by
  unfold dsetdefault
  rw [if_neg (by simp [dget_none_iff_any.mp h])]
  rw [dget_append_of_none h, dget_cons]
  simp

/-- C7: parsing the resource file ignores every line not matching
`LOC_LINE_RE` without error (removing such a line anywhere does not change
the result); a `None` or nonexistent path yields two empty mappings; for
matching lines the key-to-value map is last-seen-wins (a line `"k" = "v";`
appended at the end makes `k` map to `v` regardless of earlier lines),
while the value-to-key map is first-seen-wins (an established binding for
a value survives any appended line, and a value first bound by the
appended line maps to that line's key). -/
theorem parse_localizable_spec :
    parse_localizable none = ([], []) ∧
    (∀ (ls1 ls2 : List String) (bad : String), parseLocLine bad.data = none →
      parse_localizable (some (ls1 ++ bad :: ls2)) = parse_localizable (some (ls1 ++ ls2))) ∧
    (∀ (ls : List String) (l : String) (k v : String), parseLocLine l.data = some (k, v) →
      dget (parse_localizable (some (ls ++ [l]))).1 k = some v) ∧
    (∀ (ls : List String) (l : String) (v k0 : String),
      dget (parse_localizable (some ls)).2 v = some k0 →
      dget (parse_localizable (some (ls ++ [l]))).2 v = some k0) ∧
    (∀ (ls : List String) (l : String) (k v : String),
      dget (parse_localizable (some ls)).2 v = none → parseLocLine l.data = some (k, v) →
      dget (parse_localizable (some (ls ++ [l]))).2 v = some k) := by
  refine ⟨rfl, ?_, ?_, ?_, ?_⟩
  · intro ls1 ls2 bad hbad
    show (ls1 ++ bad :: ls2).foldl parseStep ([], []) = (ls1 ++ ls2).foldl parseStep ([], [])
    rw [List.foldl_append, List.foldl_append, List.foldl_cons]
    have hstep : parseStep (ls1.foldl parseStep ([], [])) bad = ls1.foldl parseStep ([], []) := by
      unfold parseStep
      rw [hbad]
    rw [hstep]
  · intro ls l k v hl
    show dget ((ls ++ [l]).foldl parseStep ([], [])).1 k = some v
    rw [List.foldl_append, List.foldl_cons, List.foldl_nil]
    unfold parseStep
    rw [hl]
    exact dget_dset_self _ k v
  · intro ls l v k0 h
    show dget ((ls ++ [l]).foldl parseStep ([], [])).2 v = some k0
    rw [List.foldl_append, List.foldl_cons, List.foldl_nil]
    unfold parseStep
    cases hl : parseLocLine l.data with
    | none => exact h
    | some p => exact dget_dsetdefault_of_some h _ _
  · intro ls l k v hnone hl
    show dget ((ls ++ [l]).foldl parseStep ([], [])).2 v = some k
    rw [List.foldl_append, List.foldl_cons, List.foldl_nil]
    unfold parseStep
    rw [hl]
    exact dget_dsetdefault_self_of_none hnone k

/-- Witness for C7 at concrete lines: a junk line is dropped; a repeated
key takes the last value; a repeated value keeps the first key; a fresh
value gets the appending line's key. -/
theorem parse_localizable_spec_witness :
    parseLocLine "junk".data = none ∧
    parse_localizable (some (["\"a\" = \"1\";"] ++ "junk" :: ["\"b\" = \"2\";"])) =
      parse_localizable (some (["\"a\" = \"1\";"] ++ ["\"b\" = \"2\";"])) ∧
    parseLocLine "\"hello\" = \"Bye\";".data = some ("hello", "Bye") ∧
    dget (parse_localizable (some (["\"hello\" = \"Hi there\";"] ++ ["\"hello\" = \"Bye\";"]))).1
      "hello" = some "Bye" ∧
    dget (parse_localizable (some ["\"hello\" = \"Hi there\";"])).2 "Hi there" = some "hello" ∧
    dget (parse_localizable
      (some (["\"hello\" = \"Hi there\";"] ++ ["\"k2\" = \"Hi there\";"]))).2
      "Hi there" = some "hello" ∧
    dget (parse_localizable (some ["\"hello\" = \"Hi there\";"])).2 "Bye" = none ∧
    dget (parse_localizable (some (["\"hello\" = \"Hi there\";"] ++ ["\"x\" = \"Bye\";"]))).2
      "Bye" = some "x" :=
  ⟨by decide,
   parse_localizable_spec.2.1 ["\"a\" = \"1\";"] ["\"b\" = \"2\";"] "junk" (by decide),
   by decide,
   parse_localizable_spec.2.2.1 ["\"hello\" = \"Hi there\";"] "\"hello\" = \"Bye\";"
     "hello" "Bye" (by decide),
   by decide,
   parse_localizable_spec.2.2.2.1 ["\"hello\" = \"Hi there\";"] "\"k2\" = \"Hi there\";"
     "Hi there" "hello" (by decide),
   by decide,
   parse_localizable_spec.2.2.2.2 ["\"hello\" = \"Hi there\";"] "\"x\" = \"Bye\";"
     "x" "Bye" (by decide) (by decide)⟩

/-! ## Sorting order lemmas -/

theorem lexLE_total : ∀ a b : List Char, lexLE a b = true ∨ lexLE b a = true := by
  intro a
  induction a with
  | nil => intro b; left; rfl
  | cons x s ih =>
    intro b
    cases b with
    | nil => right; rfl
    | cons y t =>
      simp only [lexLE]
      by_cases h1 : x.toNat < y.toNat
      · left; rw [if_pos h1]
      · by_cases h2 : y.toNat < x.toNat
        · right; rw [if_pos h2]
        · rcases ih t with h | h
          · left; rw [if_neg h1, if_neg h2]; exact h
          · right; rw [if_neg h2, if_neg h1]; exact h

theorem lexLE_trans : ∀ a b c : List Char,
    lexLE a b = true → lexLE b c = true → lexLE a c = true := by
  intro a
  induction a with
  | nil => intro b c _ _; rfl
  | cons x s ih =>
    intro b c hab hbc
    cases b with
    | nil => simp [lexLE] at hab
    | cons y t =>
      cases c with
      | nil => simp [lexLE] at hbc
      | cons z u =>
        simp only [lexLE] at hab hbc ⊢
        by_cases h1 : x.toNat < y.toNat
        · by_cases h2 : y.toNat < z.toNat
          · rw [if_pos (by omega)]
          · by_cases h3 : z.toNat < y.toNat
            · rw [if_neg h2, if_pos h3] at hbc; exact absurd hbc (by simp)
            · rw [if_pos (by omega : x.toNat < z.toNat)]
        · by_cases h4 : y.toNat < x.toNat
          · rw [if_neg h1, if_pos h4] at hab; exact absurd hab (by simp)
          · rw [if_neg h1, if_neg h4] at hab
            by_cases h2 : y.toNat < z.toNat
            · rw [if_pos (by omega : x.toNat < z.toNat)]
            · by_cases h3 : z.toNat < y.toNat
              · rw [if_neg h2, if_pos h3] at hbc; exact absurd hbc (by simp)
              · rw [if_neg h2, if_neg h3] at hbc
                rw [if_neg (by omega : ¬ x.toNat < z.toNat),
                  if_neg (by omega : ¬ z.toNat < x.toNat)]
                exact ih t u hab hbc

instance : IsTotal String (fun a b => strLE a b = true) :=
  ⟨fun a b => lexLE_total a.data b.data⟩

instance : IsTrans String (fun a b => strLE a b = true) :=
  ⟨fun a b c => lexLE_trans a.data b.data c.data⟩

/-- C6: persisting is a no-op on an empty additions map; otherwise the new
file content is exactly the old content (no pre-existing byte changed,
reordered or deleted), followed by one blank line exactly when the old
content was non-empty, followed by one formatted line
`"<escaped-key>" = "<escaped-value>";` per addition, keys in code-point
lexicographic order. -/
theorem write_strings_spec :
    (∀ existing : String, write_strings existing [] = existing) ∧
    (∀ (existing : String) (additions : Dict), additions ≠ [] →
      ∃ ks : List String,
        ks.Perm (additions.map Prod.fst) ∧
        List.Sorted (fun a b => strLE a b = true) ks ∧
        write_strings existing additions =
          existing ++ (if existing = "" then "" else "\n") ++
            String.join (ks.map (fun k => locLine k ((dget additions k).getD "")))) := by
  constructor
  · intro existing
    unfold write_strings
    rw [if_pos rfl]
  · intro existing additions h
    refine ⟨sortedKeys additions, ?_, ?_, ?_⟩
    · exact List.perm_insertionSort _ _
    · exact List.sorted_insertionSort _ _
    · unfold write_strings
      rw [if_neg h]

/-- Witness for C6 at a concrete table: existing content `x`, additions
`{b ↦ 2, a ↦ 1}`, written in sorted order after one blank line. -/
theorem write_strings_spec_witness :
    write_strings "x" [] = "x" ∧
    ([("b", "2"), ("a", "1")] : Dict) ≠ [] ∧
    (∃ ks : List String,
      ks.Perm ((([("b", "2"), ("a", "1")] : Dict)).map Prod.fst) ∧
      List.Sorted (fun a b => strLE a b = true) ks ∧
      write_strings "x" [("b", "2"), ("a", "1")] =
        "x" ++ (if ("x" : String) = "" then "" else "\n") ++
          String.join (ks.map (fun k =>
            locLine k ((dget [("b", "2"), ("a", "1")] k).getD "")))) ∧
    write_strings "x" [("b", "2"), ("a", "1")] = "x\n\"a\" = \"1\";\n\"b\" = \"2\";\n" :=
  ⟨write_strings_spec.1 "x", by decide,
   write_strings_spec.2 "x" [("b", "2"), ("a", "1")] (by decide), by decide⟩

/-! ## Small-step equations and structural lemmas for `litBody` -/

theorem litBody_quote (l : List Char) : litBody ('"' :: l) = ([], '"' :: l) := by
  cases l with
  | nil => rw [litBody.eq_2]; simp
  | cons d t => rw [litBody.eq_3]; simp

theorem litBody_consume {c : Char} (h1 : c ≠ '"') (h2 : c ≠ '\\') (l : List Char) :
    litBody (c :: l) = (c :: (litBody l).1, (litBody l).2) := by
  cases l with
  | nil => rw [litBody.eq_2, if_neg h1, if_neg h2]
  | cons d t => rw [litBody.eq_3, if_neg h1, if_neg h2]

theorem litBody_esc {d : Char} (h : d ≠ '\n') (l : List Char) :
    litBody ('\\' :: d :: l) = ('\\' :: d :: (litBody l).1, (litBody l).2) := by
  rw [litBody.eq_3, if_neg (by decide), if_pos rfl, if_neg h]

theorem litBody_esc_nl (l : List Char) :
    litBody ('\\' :: '\n' :: l) = ([], '\\' :: '\n' :: l) := by
  rw [litBody.eq_3, if_neg (by decide), if_pos rfl, if_pos rfl]

theorem litBody_bs_nil : litBody ['\\'] = ([], ['\\']) := by
  rw [litBody.eq_2, if_neg (by decide), if_pos rfl]

theorem litBody_decomp_aux : ∀ (n : Nat) (l : List Char), l.length ≤ n →
    (litBody l).1 ++ (litBody l).2 = l := by
  intro n
  induction n with
  | zero =>
    intro l h
    match l with
    | [] => rfl
  | succ n ih =>
    intro l h
    match l with
    | [] => rfl
    | c :: rest =>
      by_cases h1 : c = '"'
      · subst h1; rw [litBody_quote]; rfl
      · by_cases h2 : c = '\\'
        · subst h2
          match rest with
          | [] => rw [litBody_bs_nil]; rfl
          | d :: rest2 =>
            by_cases h3 : d = '\n'
            · subst h3; rw [litBody_esc_nl]; rfl
            · rw [litBody_esc h3]
              have hr := ih rest2 (by simp at h ⊢; omega)
              simpa using hr
        · rw [litBody_consume h1 h2]
          have hr := ih rest (by simp at h ⊢; omega)
          simpa using hr

theorem litBody_decomp (l : List Char) : (litBody l).1 ++ (litBody l).2 = l :=
  litBody_decomp_aux l.length l (Nat.le_refl _)

theorem litBody_rest_shape_aux : ∀ (n : Nat) (l : List Char), l.length ≤ n →
    (litBody l).2 = [] ∨ (litBody l).2 = ['\\'] ∨
    (∃ r0, (litBody l).2 = '"' :: r0) ∨ (∃ r0, (litBody l).2 = '\\' :: '\n' :: r0) := by
  intro n
  induction n with
  | zero =>
    intro l h
    match l with
    | [] => exact Or.inl rfl
  | succ n ih =>
    intro l h
    match l with
    | [] => exact Or.inl rfl
    | c :: rest =>
      by_cases h1 : c = '"'
      · subst h1; rw [litBody_quote]; exact Or.inr (Or.inr (Or.inl ⟨rest, rfl⟩))
      · by_cases h2 : c = '\\'
        · subst h2
          match rest with
          | [] => rw [litBody_bs_nil]; exact Or.inr (Or.inl rfl)
          | d :: rest2 =>
            by_cases h3 : d = '\n'
            · subst h3; rw [litBody_esc_nl]
              exact Or.inr (Or.inr (Or.inr ⟨rest2, rfl⟩))
            · rw [litBody_esc h3]
              exact ih rest2 (by simp at h ⊢; omega)
        · rw [litBody_consume h1 h2]
          exact ih rest (by simp at h ⊢; omega)

theorem litBody_rest_shape (l : List Char) :
    (litBody l).2 = [] ∨ (litBody l).2 = ['\\'] ∨
    (∃ r0, (litBody l).2 = '"' :: r0) ∨ (∃ r0, (litBody l).2 = '\\' :: '\n' :: r0) :=
  litBody_rest_shape_aux l.length l (Nat.le_refl _)

theorem litBody_safe : ∀ (k w : List Char), (∀ c ∈ k, c ≠ '"' ∧ c ≠ '\\') →
    litBody (k ++ '"' :: w) = (k, '"' :: w) := by
  intro k
  induction k with
  | nil => intro w _; exact litBody_quote w
  | cons c t ih =>
    intro w h
    have hc := h c (List.mem_cons_self c t)
    rw [List.cons_append, litBody_consume hc.1 hc.2,
      ih w (fun d hd => h d (List.mem_cons_of_mem c hd))]

theorem litBody_roundtrip_aux : ∀ (n : Nat) (l : List Char), l.length ≤ n →
    ∀ w, litBody ((litBody l).1 ++ '"' :: w) = ((litBody l).1, '"' :: w) := by
  intro n
  induction n with
  | zero =>
    intro l h w
    match l with
    | [] => exact litBody_quote w
  | succ n ih =>
    intro l h w
    match l with
    | [] => exact litBody_quote w
    | c :: rest =>
      by_cases h1 : c = '"'
      · subst h1; rw [litBody_quote]; exact litBody_quote w
      · by_cases h2 : c = '\\'
        · subst h2
          match rest with
          | [] => rw [litBody_bs_nil]; exact litBody_quote w
          | d :: rest2 =>
            by_cases h3 : d = '\n'
            · subst h3; rw [litBody_esc_nl]; exact litBody_quote w
            · rw [litBody_esc h3]
              show litBody ('\\' :: d :: ((litBody rest2).1 ++ '"' :: w)) = _
              rw [litBody_esc h3, ih rest2 (by simp at h ⊢; omega) w]
        · rw [litBody_consume h1 h2]
          show litBody (c :: ((litBody rest).1 ++ '"' :: w)) = _
          rw [litBody_consume h1 h2, ih rest (by simp at h ⊢; omega) w]

theorem litBody_roundtrip (l : List Char) :
    ∀ w, litBody ((litBody l).1 ++ '"' :: w) = ((litBody l).1, '"' :: w) :=
  litBody_roundtrip_aux l.length l (Nat.le_refl _)

theorem litBody_append_stop_aux : ∀ (n : Nat) (v : List Char), v.length ≤ n →
    ((∃ r0, (litBody v).2 = '"' :: r0) ∨ (∃ r0, (litBody v).2 = '\\' :: '\n' :: r0)) →
    ∀ t, litBody (v ++ t) = ((litBody v).1, (litBody v).2 ++ t) := by
  intro n
  induction n with
  | zero =>
    intro v h hr t
    match v with
    | [] =>
      rcases hr with ⟨r0, hr⟩ | ⟨r0, hr⟩ <;> simp [litBody] at hr
  | succ n ih =>
    intro v h hr t
    match v with
    | [] => rcases hr with ⟨r0, hr⟩ | ⟨r0, hr⟩ <;> simp [litBody] at hr
    | c :: rest =>
      by_cases h1 : c = '"'
      · subst h1
        rw [litBody_quote] at hr ⊢
        rw [List.cons_append, litBody_quote]
      · by_cases h2 : c = '\\'
        · subst h2
          match rest with
          | [] =>
            rw [litBody_bs_nil] at hr
            rcases hr with ⟨r0, hr⟩ | ⟨r0, hr⟩ <;> simp at hr
          | d :: rest2 =>
            by_cases h3 : d = '\n'
            · subst h3
              rw [litBody_esc_nl] at hr ⊢
              rw [List.cons_append, List.cons_append, litBody_esc_nl]
            · rw [litBody_esc h3] at hr ⊢
              rw [List.cons_append, List.cons_append, litBody_esc h3,
                ih rest2 (by simp at h ⊢; omega) hr t]
        · rw [litBody_consume h1 h2] at hr ⊢
          rw [List.cons_append, litBody_consume h1 h2,
            ih rest (by simp at h ⊢; omega) hr t]

theorem litBody_append_stop {v : List Char}
    (hr : (∃ r0, (litBody v).2 = '"' :: r0) ∨ (∃ r0, (litBody v).2 = '\\' :: '\n' :: r0))
    (t : List Char) : litBody (v ++ t) = ((litBody v).1, (litBody v).2 ++ t) :=
  litBody_append_stop_aux v.length v (Nat.le_refl _) hr t

theorem litBody_append_all_aux : ∀ (n : Nat) (v : List Char), v.length ≤ n →
    (litBody v).2 = [] →
    ∀ t, litBody (v ++ t) = ((litBody v).1 ++ (litBody t).1, (litBody t).2) := by
  intro n
  induction n with
  | zero =>
    intro v h hr t
    match v with
    | [] => simp [litBody]
  | succ n ih =>
    intro v h hr t
    match v with
    | [] => simp [litBody]
    | c :: rest =>
      by_cases h1 : c = '"'
      · subst h1; rw [litBody_quote] at hr; simp at hr
      · by_cases h2 : c = '\\'
        · subst h2
          match rest with
          | [] => rw [litBody_bs_nil] at hr; simp at hr
          | d :: rest2 =>
            by_cases h3 : d = '\n'
            · subst h3; rw [litBody_esc_nl] at hr; simp at hr
            · rw [litBody_esc h3] at hr ⊢
              rw [List.cons_append, List.cons_append, litBody_esc h3,
                ih rest2 (by simp at h ⊢; omega) hr t]
              simp
        · rw [litBody_consume h1 h2] at hr ⊢
          rw [List.cons_append, litBody_consume h1 h2,
            ih rest (by simp at h ⊢; omega) hr t]
          simp

theorem litBody_append_all {v : List Char} (hr : (litBody v).2 = []) (t : List Char) :
    litBody (v ++ t) = ((litBody v).1 ++ (litBody t).1, (litBody t).2) :=
  litBody_append_all_aux v.length v (Nat.le_refl _) hr t

theorem litBody_append_bs_aux : ∀ (n : Nat) (v : List Char), v.length ≤ n →
    (litBody v).2 = ['\\'] →
    (litBody (v ++ []) = ((litBody v).1, ['\\'])) ∧
    (∀ t2, litBody (v ++ '\n' :: t2) = ((litBody v).1, '\\' :: '\n' :: t2)) ∧
    (∀ x t2, x ≠ '\n' →
      litBody (v ++ x :: t2) = ((litBody v).1 ++ '\\' :: x :: (litBody t2).1, (litBody t2).2)) := by
  intro n
  induction n with
  | zero =>
    intro v h hr
    match v with
    | [] => simp [litBody] at hr
  | succ n ih =>
    intro v h hr
    match v with
    | [] => simp [litBody] at hr
    | c :: rest =>
      by_cases h1 : c = '"'
      · subst h1; rw [litBody_quote] at hr; simp at hr
      · by_cases h2 : c = '\\'
        · subst h2
          match rest with
          | [] =>
            refine ⟨by rw [litBody_bs_nil]; rfl, ?_, ?_⟩
            · intro t2
              rw [litBody_bs_nil]
              show litBody ('\\' :: '\n' :: t2) = _
              rw [litBody_esc_nl]
            · intro x t2 hx
              rw [litBody_bs_nil]
              show litBody ('\\' :: x :: t2) = _
              rw [litBody_esc hx]
              rfl
          | d :: rest2 =>
            by_cases h3 : d = '\n'
            · subst h3; rw [litBody_esc_nl] at hr; simp at hr
            · rw [litBody_esc h3] at hr ⊢
              have ih2 := ih rest2 (by simp at h ⊢; omega) hr
              refine ⟨?_, ?_, ?_⟩
              · rw [List.cons_append, List.cons_append, litBody_esc h3, ih2.1]
              · intro t2
                rw [List.cons_append, List.cons_append, litBody_esc h3, ih2.2.1 t2]
              · intro x t2 hx
                rw [List.cons_append, List.cons_append, litBody_esc h3, ih2.2.2 x t2 hx]
                simp
        · rw [litBody_consume h1 h2] at hr ⊢
          have ih2 := ih rest (by simp at h ⊢; omega) hr
          refine ⟨?_, ?_, ?_⟩
          · rw [List.cons_append, litBody_consume h1 h2, ih2.1]
          · intro t2
            rw [List.cons_append, litBody_consume h1 h2, ih2.2.1 t2]
          · intro x t2 hx
            rw [List.cons_append, litBody_consume h1 h2, ih2.2.2 x t2 hx]
            simp

theorem litBody_append_bs {v : List Char} (hr : (litBody v).2 = ['\\']) :
    (litBody (v ++ []) = ((litBody v).1, ['\\'])) ∧
    (∀ t2, litBody (v ++ '\n' :: t2) = ((litBody v).1, '\\' :: '\n' :: t2)) ∧
    (∀ x t2, x ≠ '\n' →
      litBody (v ++ x :: t2) = ((litBody v).1 ++ '\\' :: x :: (litBody t2).1, (litBody t2).2)) :=
  litBody_append_bs_aux v.length v (Nat.le_refl _) hr

/-! ## Whitespace-run helpers -/

theorem takeWhile_all_append {p : Char → Bool} {sp : List Char}
    (h : ∀ c ∈ sp, p c = true) (l : List Char) :
    (sp ++ l).takeWhile p = sp ++ l.takeWhile p := by
  induction sp with
  | nil => simp
  | cons c t ih =>
    rw [List.cons_append, List.takeWhile_cons, if_pos (h c (List.mem_cons_self c t))]
    rw [ih (fun d hd => h d (List.mem_cons_of_mem c hd))]
    rfl

theorem dropWhile_all_append {p : Char → Bool} {sp : List Char}
    (h : ∀ c ∈ sp, p c = true) (l : List Char) :
    (sp ++ l).dropWhile p = l.dropWhile p := by
  induction sp with
  | nil => simp
  | cons c t ih =>
    rw [List.cons_append, List.dropWhile_cons, if_pos (h c (List.mem_cons_self c t))]
    exact ih (fun d hd => h d (List.mem_cons_of_mem c hd))

theorem takeWhile_cons_neg {p : Char → Bool} {c : Char} (h : p c = false) (l : List Char) :
    (c :: l).takeWhile p = [] := by
  rw [List.takeWhile_cons, if_neg (by simp [h])]

theorem dropWhile_cons_neg {p : Char → Bool} {c : Char} (h : p c = false) (l : List Char) :
    (c :: l).dropWhile p = c :: l := by
  rw [List.dropWhile_cons, if_neg (by simp [h])]

/-! ## Inversion and introduction lemmas for the pattern matcher -/

theorem matchAt_nil : matchAt [] = none := rfl

theorem matchAt_cons_ne {c : Char} (h : c ≠ 'T') (l : List Char) : matchAt (c :: l) = none := by
  unfold matchAt
  rw [if_neg]
  intro hpre
  rw [List.isPrefixOf_iff_prefix] at hpre
  rcases hpre with ⟨t, ht⟩
  rw [show "Text(".data = 'T' :: "ext(".data from rfl, List.cons_append] at ht
  exact h (List.cons.injEq .. ▸ ht).1.symm


theorem matchAfterHead_inv {r0 w0 b r6 : List Char}
    (h : matchAfterHead r0 = some (w0, b, r6)) :
    ∃ sp1 sp2 r2,
      (∀ c ∈ sp1, pyIsSpace c = true) ∧ (∀ c ∈ sp2, pyIsSpace c = true) ∧
      r0 = sp1 ++ '"' :: r2 ∧
      litBody r2 = (b, '"' :: (sp2 ++ ')' :: r6)) ∧
      b ≠ [] ∧ lookLocalized r6 = false ∧
      w0 = sp1 ++ '"' :: b ++ '"' :: sp2 ++ [')'] := by
  unfold matchAfterHead at h
  split at h
  case h_2 => exact absurd h (by simp)
  rename_i r2 heq1
  split at h
  case isTrue => exact absurd h (by simp)
  rename_i hbody
  split at h
  case h_2 => exact absurd h (by simp)
  rename_i r4 heq2
  split at h
  case h_2 => exact absurd h (by simp)
  rename_i r6x heq3
  split at h
  case isTrue => exact absurd h (by simp)
  rename_i hlook
  simp only [Option.some.injEq, Prod.mk.injEq] at h
  obtain ⟨hw, hb, hr⟩ := h
  refine ⟨r0.takeWhile pyIsSpace, r4.takeWhile pyIsSpace, r2, ?_, ?_, ?_, ?_, ?_, ?_, ?_⟩
  · intro c hc; exact List.mem_takeWhile_imp hc
  · intro c hc; exact List.mem_takeWhile_imp hc
  · conv_lhs => rw [← List.takeWhile_append_dropWhile pyIsSpace r0]
    rw [heq1]
  · have hr4 : r4 = r4.takeWhile pyIsSpace ++ ')' :: r6 := by
      conv_lhs => rw [← List.takeWhile_append_dropWhile pyIsSpace r4]
      rw [heq3, hr]
    rw [← hb, ← hr4, ← heq2]
  · rw [← hb]; exact hbody
  · rw [← hr]; simpa using hlook
  · rw [← hw, ← hb]

theorem matchAt_inv {l w b r : List Char} (h : matchAt l = some (w, b, r)) :
    ∃ w0, w = "Text(".data ++ w0 ∧ l = "Text(".data ++ l.drop 5 ∧
      matchAfterHead (l.drop 5) = some (w0, b, r) := by
  unfold matchAt at h
  split at h
  · rename_i hpre
    split at h
    · rename_i w0 b0 r0 heq
      simp only [Option.some.injEq, Prod.mk.injEq] at h
      obtain ⟨hw, hb, hr⟩ := h
      refine ⟨w0, hw.symm, ?_, ?_⟩
      · have := List.prefix_iff_eq_append.mp (List.isPrefixOf_iff_prefix.mp hpre)
        simpa using this.symm
      · rw [heq, hb, hr]
    · exact absurd h (by simp)
  · exact absurd h (by simp)

theorem matchAt_decomp {l w b r : List Char} (h : matchAt l = some (w, b, r)) :
    l = w ++ r ∧ w ≠ [] := by
  obtain ⟨w0, hw, hl, hmah⟩ := matchAt_inv h
  obtain ⟨sp1, sp2, r2, _, _, hr0, hlit, _, _, hw0⟩ := matchAfterHead_inv hmah
  constructor
  · have hb : b ++ '"' :: (sp2 ++ ')' :: r) = r2 := by
      have hd := litBody_decomp r2
      rw [hlit] at hd
      simpa using hd
    rw [hw, hw0]
    conv_lhs => rw [hl, hr0, ← hb]
    simp
  · rw [hw]
    simp

theorem matchAt_rest_length {l w b r : List Char} (h : matchAt l = some (w, b, r)) :
    r.length < l.length := by
  obtain ⟨hd, hne⟩ := matchAt_decomp h
  rw [hd, List.length_append]
  have : 0 < w.length := List.length_pos.mpr hne
  omega

/-! ## The scanner: fuel irrelevance and step equations -/

/-- The scan of a character list with its canonical fuel. -/
def scanChars (vk : Dict) (l : List Char) (st : PState) : List Char × PState :=
  scanGo vk l.length l st

theorem scanGo_nil (vk : Dict) (f : Nat) (st : PState) : scanGo vk f [] st = ([], st) := by
  cases f <;> rfl

theorem scanGo_fuel (vk : Dict) : ∀ (n : Nat) (l : List Char) (f g : Nat) (st : PState),
    l.length ≤ n → l.length ≤ f → l.length ≤ g → scanGo vk f l st = scanGo vk g l st := by
  intro n
  induction n with
  | zero =>
    intro l f g st hn hf hg
    match l with
    | [] => rw [scanGo_nil, scanGo_nil]
  | succ n ih =>
    intro l f g st hn hf hg
    match l with
    | [] => rw [scanGo_nil, scanGo_nil]
    | c :: cs =>
      match f, g with
      | f + 1, g + 1 =>
        simp only [scanGo]
        cases hm : matchAt (c :: cs) with
        | some x =>
          match x with
          | (w, bd, rest) =>
            have hlen := matchAt_rest_length hm
            simp only []
            rw [ih rest f g _ (by simp at hn hlen ⊢; omega) (by simp at hf hlen ⊢; omega)
              (by simp at hg hlen ⊢; omega)]
        | none =>
          simp only []
          rw [ih cs f g _ (by simp at hn ⊢; omega) (by simp at hf ⊢; omega)
            (by simp at hg ⊢; omega)]

theorem scanChars_nil (vk : Dict) (st : PState) : scanChars vk [] st = ([], st) := rfl

theorem scanChars_cons_some {c : Char} {cs w bd rest : List Char}
    (hm : matchAt (c :: cs) = some (w, bd, rest)) (vk : Dict) (st : PState) :
    scanChars vk (c :: cs) st =
      ((replOcc vk w bd st).1 ++ (scanChars vk rest (replOcc vk w bd st).2).1,
       (scanChars vk rest (replOcc vk w bd st).2).2) := by
  unfold scanChars
  have hlen := matchAt_rest_length hm
  show scanGo vk (cs.length + 1) (c :: cs) st = _
  simp only [scanGo, hm]
  rw [scanGo_fuel vk rest.length rest cs.length rest.length _ (Nat.le_refl _)
    (by simp at hlen ⊢; omega) (Nat.le_refl _)]

theorem scanChars_cons_none {c : Char} {cs : List Char}
    (hm : matchAt (c :: cs) = none) (vk : Dict) (st : PState) :
    scanChars vk (c :: cs) st =
      (c :: (scanChars vk cs st).1, (scanChars vk cs st).2) := by
  unfold scanChars
  show scanGo vk (cs.length + 1) (c :: cs) st = _
  simp only [scanGo, hm]

/-! ## Safe keys

A key is *safe* when it contains no quote, backslash, parenthesis or
whitespace character.  Keys minted by the slugifier/resolver are safe by
construction; the idempotence theorem assumes the pre-existing table's keys
are safe as well, which is what the data model requires of keys (dotted
lowercase identifiers). -/

def SafeKey (k : String) : Prop :=
  ∀ c ∈ k.data, c ≠ '"' ∧ c ≠ '\\' ∧ c ≠ '(' ∧ c ≠ ')' ∧ pyIsSpace c = false

theorem pyIsAlnum_safe {c : Char} (h : pyIsAlnum c = true) :
    c ≠ '"' ∧ c ≠ '\\' ∧ c ≠ '(' ∧ c ≠ ')' ∧ pyIsSpace c = false := by
  refine ⟨?_, ?_, ?_, ?_, ?_⟩
  · intro hc; subst hc; exact absurd h (by decide)
  · intro hc; subst hc; exact absurd h (by decide)
  · intro hc; subst hc; exact absurd h (by decide)
  · intro hc; subst hc; exact absurd h (by decide)
  · cases hs : pyIsSpace c
    · rfl
    · exfalso
      unfold pyIsSpace at hs
      simp only [Bool.or_eq_true, decide_eq_true_eq, or_assoc] at hs
      rcases hs with rfl | rfl | rfl | rfl | rfl | rfl <;> exact absurd h (by decide)

theorem SafeKey_slug (s : String) : SafeKey (slugify_key s) := by
  intro c hc
  rcases slugify_key_chars s c hc with h | h
  · exact pyIsAlnum_safe h
  · subst h; refine ⟨by decide, by decide, by decide, by decide, by decide⟩

theorem natToDecAux_chars : ∀ (f n : Nat) (c : Char), c ∈ natToDecAux f n →
    ∃ d, d < 10 ∧ c = decDigit d := by
  intro f
  induction f with
  | zero =>
    intro n c hc
    simp only [natToDecAux, List.mem_singleton] at hc
    exact ⟨n % 10, Nat.mod_lt _ (by omega), hc⟩
  | succ f ih =>
    intro n c hc
    simp only [natToDecAux] at hc
    split at hc
    · rename_i hn
      simp only [List.mem_singleton] at hc
      exact ⟨n, hn, hc⟩
    · rcases List.mem_append.mp hc with h | h
      · exact ih (n / 10) c h
      · simp only [List.mem_singleton] at h
        exact ⟨n % 10, Nat.mod_lt _ (by omega), h⟩

theorem decDigit_safe : ∀ d, d < 10 →
    decDigit d ≠ '"' ∧ decDigit d ≠ '\\' ∧ decDigit d ≠ '(' ∧ decDigit d ≠ ')' ∧
    pyIsSpace (decDigit d) = false := by
  decide

theorem SafeKey_mkNumKey {base : String} (h : SafeKey base) (i : Nat) :
    SafeKey (mkNumKey base i) := by
  intro c hc
  unfold mkNumKey at hc
  simp only [String.data_append, List.append_assoc, List.mem_append] at hc
  rcases hc with hc | hc | hc
  · exact h c hc
  · have : c = '.' := by simpa using hc
    subst this
    refine ⟨by decide, by decide, by decide, by decide, by decide⟩
  · obtain ⟨d, hd, rfl⟩ := natToDecAux_chars i i c (by simpa [natToDec] using hc)
    exact decDigit_safe d hd

theorem SafeKey_gen {base : String} (h : SafeKey base) (ex : List String) :
    SafeKey (generate_unique_key base ex) := by
  unfold generate_unique_key
  split
  · obtain ⟨d, hd, _⟩ := @genAux_first base ex (ex.length + 1) 2
    rw [hd]
    exact SafeKey_mkNumKey h _
  · exact h

theorem dget_mem {d : Dict} {x v : String} (h : dget d x = some v) : ∃ p ∈ d, p.2 = v := by
  unfold dget at h
  split at h
  · rename_i p hp
    simp only [Option.some.injEq] at h
    exact ⟨p, List.mem_of_find?_eq_some hp, h⟩
  · exact absurd h (by simp)

/-- Every segment produced by the `repl` callback is either the matched
text itself (skip) or a replacement `Text("k".localized)` for a safe key. -/
theorem replOcc_cases (vk : Dict) (hvk : ∀ p ∈ vk, SafeKey p.2)
    (w bd : List Char) (st : PState) :
    (should_skip_literal (unescapeChars bd) = true ∧ replOcc vk w bd st = (w, st)) ∨
    (∃ k, SafeKey k ∧ (replOcc vk w bd st).1 = replText k) := by
  unfold replOcc
  by_cases hs : should_skip_literal (unescapeChars bd) = true
  · left
    exact ⟨hs, by rw [if_pos hs]⟩
  · right
    rw [if_neg hs]
    cases hg : dget vk ⟨unescapeChars bd⟩ with
    | some k =>
      dsimp only
      by_cases hk : k = ""
      · rw [if_pos hk]
        exact ⟨_, SafeKey_gen (SafeKey_slug _) _, rfl⟩
      · rw [if_neg hk]
        obtain ⟨p, hp, hpv⟩ := dget_mem hg
        exact ⟨k, hpv ▸ hvk p hp, rfl⟩
    | none =>
      exact ⟨_, SafeKey_gen (SafeKey_slug _) _, rfl⟩

/-- Weak form: the segment is the matched text or some replacement. -/
theorem replOcc_head (vk : Dict) (w bd : List Char) (st : PState) :
    (replOcc vk w bd st).1 = w ∨ ∃ k, (replOcc vk w bd st).1 = replText k := by
  unfold replOcc
  by_cases hs : should_skip_literal (unescapeChars bd) = true
  · left; rw [if_pos hs]
  · right
    rw [if_neg hs]
    cases hg : dget vk ⟨unescapeChars bd⟩ with
    | some k =>
      dsimp only
      by_cases hk : k = ""
      · rw [if_pos hk]; exact ⟨_, rfl⟩
      · rw [if_neg hk]; exact ⟨k, rfl⟩
    | none => exact ⟨_, rfl⟩

/-! ## Head preservation and lookahead transfer -/

theorem isPrefixOf_nil_left (l : List Char) : ([] : List Char).isPrefixOf l = true := by
  cases l <;> rfl

theorem isPrefixOf_cons₂ (a b : Char) (as bs : List Char) :
    (a :: as).isPrefixOf (b :: bs) = (a == b && as.isPrefixOf bs) := rfl

/-- The scan of a non-empty list preserves its first character. -/
theorem scanChars_head (vk : Dict) (c : Char) (cs : List Char) (st : PState) :
    ∃ t', (scanChars vk (c :: cs) st).1 = c :: t' := by
  cases hm : matchAt (c :: cs) with
  | none =>
    rw [scanChars_cons_none hm]
    exact ⟨_, rfl⟩
  | some x =>
    match x with
    | (w, bd, rest) =>
      rw [scanChars_cons_some hm]
      obtain ⟨hd, hne⟩ := matchAt_decomp hm
      obtain ⟨w0, hw, hl, _⟩ := matchAt_inv hm
      have hc : c = 'T' := by
        rw [show "Text(".data = 'T' :: "ext(".data from rfl, List.cons_append] at hl
        simp only [List.cons.injEq] at hl
        exact hl.1
      rcases replOcc_head vk w bd st with hseg | ⟨k, hseg⟩
      · rw [hseg]
        cases w with
        | nil => exact absurd rfl hne
        | cons cw w1 =>
          simp only [List.cons_append, List.cons.injEq] at hd
          exact ⟨_, by rw [← hd.1]; rfl⟩
      · rw [hseg]
        subst hc
        exact ⟨_, rfl⟩

/-- Scanning does not change whether a `'T'`-free word is a prefix. -/
theorem isPrefixOf_scan (vk : Dict) : ∀ (n : Nat) (x : List Char), x.length ≤ n →
    ∀ (wd : List Char) (st : PState), 'T' ∉ wd →
    wd.isPrefixOf (scanChars vk x st).1 = wd.isPrefixOf x := by
  intro n
  induction n with
  | zero =>
    intro x h wd st hT
    match x with
    | [] => rw [scanChars_nil]
  | succ n ih =>
    intro x h wd st hT
    match x with
    | [] => rw [scanChars_nil]
    | c :: cs =>
      cases hm : matchAt (c :: cs) with
      | none =>
        rw [scanChars_cons_none hm]
        cases wd with
        | nil => rw [isPrefixOf_nil_left, isPrefixOf_nil_left]
        | cons a wd2 =>
          rw [isPrefixOf_cons₂, isPrefixOf_cons₂,
            ih cs (by simp at h ⊢; omega) wd2 st (fun hmem => hT (List.mem_cons_of_mem a hmem))]
      | some x0 =>
        match x0 with
        | (w, bd, rest) =>
          obtain ⟨t', ht⟩ := scanChars_head vk c cs st
          rw [ht]
          obtain ⟨w0, hw, hl, _⟩ := matchAt_inv hm
          have hc : c = 'T' := by
            rw [show "Text(".data = 'T' :: "ext(".data from rfl, List.cons_append] at hl
            simp only [List.cons.injEq] at hl
            exact hl.1
          subst hc
          cases wd with
          | nil => rw [isPrefixOf_nil_left, isPrefixOf_nil_left]
          | cons a wd2 =>
            have ha : a ≠ 'T' := fun hh => hT (hh ▸ List.mem_cons_self a wd2)
            rw [isPrefixOf_cons₂, isPrefixOf_cons₂]
            have : (a == 'T') = false := by simpa using ha
            rw [this]
            simp

theorem lookLocalized_cons_space {c : Char} (h : pyIsSpace c = true) (l : List Char) :
    lookLocalized (c :: l) = lookLocalized l := by
  unfold lookLocalized
  rw [List.dropWhile_cons, if_pos h]

theorem lookLocalized_cons_nonspace {c : Char} (h : pyIsSpace c = false) (l : List Char) :
    lookLocalized (c :: l) = ".localized".data.isPrefixOf (c :: l) := by
  unfold lookLocalized
  rw [dropWhile_cons_neg h]

/-- Scanning does not change the result of the lookahead test. -/
theorem lookLocalized_scan (vk : Dict) : ∀ (n : Nat) (x : List Char), x.length ≤ n →
    ∀ st : PState, lookLocalized ((scanChars vk x st).1) = lookLocalized x := by
  intro n
  induction n with
  | zero =>
    intro x h st
    match x with
    | [] => rw [scanChars_nil]
  | succ n ih =>
    intro x h st
    match x with
    | [] => rw [scanChars_nil]
    | c :: cs =>
      cases hm : matchAt (c :: cs) with
      | none =>
        rw [scanChars_cons_none hm]
        cases hc : pyIsSpace c with
        | true =>
          rw [lookLocalized_cons_space hc, lookLocalized_cons_space hc]
          exact ih cs (by simp at h ⊢; omega) st
        | false =>
          rw [lookLocalized_cons_nonspace hc, lookLocalized_cons_nonspace hc]
          by_cases hdot : c = '.'
          · subst hdot
            rw [show ".localized".data = '.' :: "localized".data from rfl,
              isPrefixOf_cons₂, isPrefixOf_cons₂,
              isPrefixOf_scan vk cs.length cs (Nat.le_refl _) "localized".data st (by decide)]
          · rw [show ".localized".data = '.' :: "localized".data from rfl,
              isPrefixOf_cons₂, isPrefixOf_cons₂]
            have : ('.' == c) = false := by simpa using (fun hh => hdot hh.symm)
            rw [this]
            simp
      | some x0 =>
        match x0 with
        | (w, bd, rest) =>
          obtain ⟨t', ht⟩ := scanChars_head vk c cs st
          rw [ht]
          obtain ⟨w0, hw, hl, _⟩ := matchAt_inv hm
          have hc : c = 'T' := by
            rw [show "Text(".data = 'T' :: "ext(".data from rfl, List.cons_append] at hl
            simp only [List.cons.injEq] at hl
            exact hl.1
          subst hc
          rw [lookLocalized_cons_nonspace (by decide), lookLocalized_cons_nonspace (by decide)]
          rw [show ".localized".data = '.' :: "localized".data from rfl,
            isPrefixOf_cons₂, isPrefixOf_cons₂]
          rw [show (('.' == 'T') : Bool) = false from rfl]
          simp

theorem isPrefixOf_T_pair : ∀ (q wd A B : List Char) (a2 b2 : List Char), 'T' ∉ wd →
    A = 'T' :: a2 → B = 'T' :: b2 →
    wd.isPrefixOf (q ++ A) = wd.isPrefixOf (q ++ B) := by
  intro q
  induction q with
  | nil =>
    intro wd A B a2 b2 hT hA hB
    subst hA; subst hB
    cases wd with
    | nil => rw [isPrefixOf_nil_left, isPrefixOf_nil_left]
    | cons a wd2 =>
      have ha : (a == 'T') = false := by
        simp only [beq_eq_false_iff_ne, ne_eq]
        intro hh
        exact hT (hh ▸ List.mem_cons_self a wd2)
      rw [List.nil_append, List.nil_append, isPrefixOf_cons₂, isPrefixOf_cons₂, ha]
      simp
  | cons c q' ih =>
    intro wd A B a2 b2 hT hA hB
    cases wd with
    | nil => rw [isPrefixOf_nil_left, isPrefixOf_nil_left]
    | cons a wd2 =>
      rw [List.cons_append, List.cons_append, isPrefixOf_cons₂, isPrefixOf_cons₂,
        ih wd2 A B a2 b2 (fun hm => hT (List.mem_cons_of_mem a hm)) hA hB]

theorem lookLocalized_T_pair : ∀ (q A B : List Char) (a2 b2 : List Char),
    A = 'T' :: a2 → B = 'T' :: b2 →
    lookLocalized (q ++ A) = lookLocalized (q ++ B) := by
  intro q
  induction q with
  | nil =>
    intro A B a2 b2 hA hB
    subst hA; subst hB
    rw [List.nil_append, List.nil_append, lookLocalized_cons_nonspace (by decide),
      lookLocalized_cons_nonspace (by decide),
      show ".localized".data = '.' :: "localized".data from rfl,
      isPrefixOf_cons₂, isPrefixOf_cons₂,
      show (('.' == 'T') : Bool) = false from rfl]
    simp
  | cons c q' ih =>
    intro A B a2 b2 hA hB
    cases hc : pyIsSpace c with
    | true =>
      rw [List.cons_append, List.cons_append, lookLocalized_cons_space hc,
        lookLocalized_cons_space hc, ih A B a2 b2 hA hB]
    | false =>
      rw [List.cons_append, List.cons_append, lookLocalized_cons_nonspace hc,
        lookLocalized_cons_nonspace hc,
        show ".localized".data = '.' :: "localized".data from rfl,
        isPrefixOf_cons₂, isPrefixOf_cons₂,
        isPrefixOf_T_pair q' "localized".data A B a2 b2 (by decide) hA hB]

/-- Copy-through: scanning a region with no `'T'` copies it verbatim. -/
theorem scanChars_copy (vk : Dict) : ∀ (v : List Char), (∀ c ∈ v, c ≠ 'T') →
    ∀ (t : List Char) (st : PState),
    scanChars vk (v ++ t) st = (v ++ (scanChars vk t st).1, (scanChars vk t st).2) := by
  intro v
  induction v with
  | nil => intro _ t st; simp
  | cons c v2 ih =>
    intro h t st
    rw [List.cons_append,
      scanChars_cons_none (matchAt_cons_ne (h c (List.mem_cons_self c v2)) _),
      ih (fun d hd => h d (List.mem_cons_of_mem c hd)) t st]
    simp

theorem not_prefix_inside_key {u2 : List Char} (hs : ∀ c ∈ u2, c ≠ '(') (t : List Char) :
    ¬ ("Text(".data.isPrefixOf ('T' :: (u2 ++ "\".localized)".data ++ t)) = true) := by
  intro hpre
  rw [List.isPrefixOf_iff_prefix] at hpre
  rcases hpre with ⟨r, hr⟩
  rw [show "Text(".data = 'T' :: 'e' :: 'x' :: 't' :: '(' :: ([] : List Char) from rfl] at hr
  simp only [List.cons_append, List.nil_append, List.cons.injEq, true_and] at hr
  match u2, hs with
  | [], _ => simp at hr
  | [a], _ => simp at hr
  | [a, b], _ => simp at hr
  | [a, b, c], _ => simp at hr
  | a :: b :: c :: d :: u3, hs =>
    simp only [List.cons_append, List.cons.injEq] at hr
    exact hs d (by simp) hr.2.2.2.1.symm

theorem scanChars_key_mark (vk₂ : Dict) : ∀ (u : List Char),
    (∀ c ∈ u, c ≠ '"' ∧ c ≠ '\\' ∧ c ≠ '(') → ∀ (t : List Char) (st : PState),
    scanChars vk₂ (u ++ "\".localized)".data ++ t) st =
      (u ++ "\".localized)".data ++ (scanChars vk₂ t st).1, (scanChars vk₂ t st).2) := by
  intro u
  induction u with
  | nil =>
    intro _ t st
    simpa using scanChars_copy vk₂ "\".localized)".data (by decide) t st
  | cons c u2 ih =>
    intro h t st
    have hnone : matchAt (c :: (u2 ++ "\".localized)".data ++ t)) = none := by
      by_cases hc : c = 'T'
      · subst hc
        unfold matchAt
        rw [if_neg (not_prefix_inside_key (fun d hd => (h d (List.mem_cons_of_mem _ hd)).2.2) t)]
      · exact matchAt_cons_ne hc _
    rw [show (c :: u2) ++ "\".localized)".data ++ t = c :: (u2 ++ "\".localized)".data ++ t)
        from by simp,
      scanChars_cons_none hnone,
      ih (fun d hd => h d (List.mem_cons_of_mem _ hd)) t st]
    simp

/-- Inside a replacement, the parse after the opening quote fails: the
marker's `.` sits where the regex requires `)`. -/
theorem matchAfterHead_quote_key {kd : List Char} (hk : ∀ c ∈ kd, c ≠ '"' ∧ c ≠ '\\')
    (w2 : List Char) :
    matchAfterHead ('"' :: (kd ++ '"' :: '.' :: w2)) = none := by
  unfold matchAfterHead
  rw [dropWhile_cons_neg (by decide)]
  split
  · rename_i r2 heq
    have hr2 : r2 = kd ++ '"' :: '.' :: w2 := by
      injection heq with _ h
      exact h.symm
    subst hr2
    rw [litBody_safe kd ('.' :: w2) hk]
    by_cases hkd : kd = []
    · rw [if_pos hkd]
    · rw [if_neg hkd]
      split
      · rename_i r4 heq2
        have hr4 : r4 = '.' :: w2 := by
          injection heq2 with _ h
          exact h.symm
        subst hr4
        rw [dropWhile_cons_neg (by decide)]
        split
        · rename_i r6 heq3
          exact absurd heq3 (by simp)
        · rfl
      · rfl
  · rfl

/-- A replacement segment is copied verbatim by a second scan: no match can
start at or inside `Text("k".localized)` for a safe key `k`. -/
theorem scanChars_replText (vk₂ : Dict) {k : String} (hk : SafeKey k) (t : List Char)
    (st : PState) :
    scanChars vk₂ (replText k ++ t) st =
      (replText k ++ (scanChars vk₂ t st).1, (scanChars vk₂ t st).2) := by
  have hsafe2 : ∀ c ∈ k.data, c ≠ '"' ∧ c ≠ '\\' := fun c hc => ⟨(hk c hc).1, (hk c hc).2.1⟩
  have hshape : replText k ++ t =
      'T' :: 'e' :: 'x' :: 't' :: '(' :: '"' :: (k.data ++ "\".localized)".data ++ t) := by
    unfold replText
    simp
  have h0 : matchAt
      ('T' :: 'e' :: 'x' :: 't' :: '(' :: '"' :: (k.data ++ "\".localized)".data ++ t)) =
      none := by
    unfold matchAt
    split
    · have hd5 : ('T' :: 'e' :: 'x' :: 't' :: '(' :: '"' ::
          (k.data ++ "\".localized)".data ++ t)).drop 5 =
          '"' :: (k.data ++ ('"' :: '.' :: ("localized)".data ++ t))) := by
        simp
      rw [hd5, matchAfterHead_quote_key hsafe2 _]
    · rfl
  rw [hshape, scanChars_cons_none h0]
  have hcopy : scanChars vk₂ ('e' :: 'x' :: 't' :: '(' :: '"' ::
      (k.data ++ "\".localized)".data ++ t)) st =
      ('e' :: 'x' :: 't' :: '(' :: '"' ::
        (scanChars vk₂ (k.data ++ "\".localized)".data ++ t) st).1,
       (scanChars vk₂ (k.data ++ "\".localized)".data ++ t) st).2) := by
    have := scanChars_copy vk₂ ['e', 'x', 't', '(', '"'] (by decide)
      (k.data ++ "\".localized)".data ++ t) st
    simpa using this
  rw [hcopy,
    scanChars_key_mark vk₂ k.data
      (fun c hc => ⟨(hk c hc).1, (hk c hc).2.1, (hk c hc).2.2.1⟩) t st]
  unfold replText
  simp

theorem litBody_replText_tail (kd Z : List Char) :
    litBody ('e' :: 'x' :: 't' :: '(' :: '"' :: (kd ++ Z)) =
      (['e', 'x', 't', '('], '"' :: (kd ++ Z)) := by
  rw [litBody_consume (by decide) (by decide), litBody_consume (by decide) (by decide),
    litBody_consume (by decide) (by decide), litBody_consume (by decide) (by decide),
    litBody_quote]

theorem dropWhile_key_quote {kd : List Char} (hs : ∀ c ∈ kd, pyIsSpace c = false)
    (Z : List Char) :
    (kd ++ '"' :: Z).dropWhile pyIsSpace = kd ++ '"' :: Z := by
  cases kd with
  | nil => exact dropWhile_cons_neg (by decide) Z
  | cons k0 kd2 =>
    rw [List.cons_append]
    exact dropWhile_cons_neg (hs k0 (List.mem_cons_self k0 kd2)) _

/-- After a parse lands right before a safe key followed by the marker's
closing quote, the `)` the regex requires cannot appear. -/
theorem paren_match_fails {kd : List Char} (hsafe : ∀ c ∈ kd, pyIsSpace c = false ∧ c ≠ ')')
    {Z r6 : List Char} (h : (kd ++ '"' :: Z).dropWhile pyIsSpace = ')' :: r6) : False := by
  rw [dropWhile_key_quote (fun c hc => (hsafe c hc).1) Z] at h
  cases kd with
  | nil => simp at h
  | cons k0 kd2 =>
    simp only [List.cons_append, List.cons.injEq] at h
    exact (hsafe k0 (List.mem_cons_self k0 kd2)).2 h.1

theorem dropWhile_append_dropWhile (u A : List Char) :
    (u ++ A).dropWhile pyIsSpace = (u.dropWhile pyIsSpace ++ A).dropWhile pyIsSpace := by
  conv_lhs => rw [← List.takeWhile_append_dropWhile pyIsSpace u, List.append_assoc]
  rw [dropWhile_all_append (fun c hc => List.mem_takeWhile_imp hc)]

/-- Full computation of `matchAfterHead` for an argument that parses up to
the lookahead, as a function of the text after the closing parenthesis. -/
theorem matchAfterHead_deep {v5 v5'' r0 r0'' : List Char}
    (hv : v5.dropWhile pyIsSpace = '"' :: v5'')
    (hstop : (litBody v5'').2 = '"' :: r0)
    (hB : ¬ (litBody v5'').1 = [])
    (hr0 : r0.dropWhile pyIsSpace = ')' :: r0'') (A : List Char) :
    (lookLocalized (r0'' ++ A) = true → matchAfterHead (v5 ++ A) = none) ∧
    (lookLocalized (r0'' ++ A) = false →
      matchAfterHead (v5 ++ A) =
        some ((v5 ++ A).takeWhile pyIsSpace ++ '"' :: (litBody v5'').1 ++ '"' ::
          ((r0 ++ A).takeWhile pyIsSpace) ++ [')'], (litBody v5'').1, r0'' ++ A)) := by
  have hdw1 : (v5 ++ A).dropWhile pyIsSpace = '"' :: (v5'' ++ A) := by
    rw [dropWhile_append_dropWhile, hv, List.cons_append, dropWhile_cons_neg (by decide)]
  have hlb : litBody (v5'' ++ A) = ((litBody v5'').1, '"' :: (r0 ++ A)) := by
    rw [litBody_append_stop (Or.inl ⟨r0, hstop⟩) A, hstop]
    simp
  have hdw2 : (r0 ++ A).dropWhile pyIsSpace = ')' :: (r0'' ++ A) := by
    rw [dropWhile_append_dropWhile, hr0, List.cons_append, dropWhile_cons_neg (by decide)]
  constructor
  · intro hlook
    unfold matchAfterHead
    rw [hdw1]
    split
    · rename_i r2 heq
      have hr2 : r2 = v5'' ++ A := by
        injection heq with _ h
        exact h.symm
      subst hr2
      rw [hlb]
      dsimp only
      rw [if_neg hB]
      split
      · rename_i r4 heq2
        have hr4 : r4 = r0 ++ A := by
          injection heq2 with _ h
          exact h.symm
        subst hr4
        rw [hdw2]
        split
        · rename_i r6 heq3
          have hr6 : r6 = r0'' ++ A := by
            injection heq3 with _ h
            exact h.symm
          subst hr6
          rw [if_pos hlook]
        · rename_i hno
          exact absurd rfl (hno (r0'' ++ A))
      · rename_i hno
        exact absurd rfl (hno (r0 ++ A))
    · rename_i hno
      exact absurd rfl (hno (v5'' ++ A))
  · intro hlook
    unfold matchAfterHead
    rw [hdw1]
    split
    · rename_i r2 heq
      have hr2 : r2 = v5'' ++ A := by
        injection heq with _ h
        exact h.symm
      subst hr2
      rw [hlb]
      dsimp only
      rw [if_neg hB]
      split
      · rename_i r4 heq2
        have hr4 : r4 = r0 ++ A := by
          injection heq2 with _ h
          exact h.symm
        subst hr4
        rw [hdw2]
        split
        · rename_i r6 heq3
          have hr6 : r6 = r0'' ++ A := by
            injection heq3 with _ h
            exact h.symm
          subst hr6
          rw [if_neg (by simp [hlook])]
        · rename_i hno
          exact absurd rfl (hno (r0'' ++ A))
      · rename_i hno
        exact absurd rfl (hno (r0 ++ A))
    · rename_i hno
      exact absurd rfl (hno (v5'' ++ A))

/-- The heart of the idempotence proof: if the pattern failed to match at a
position of the first pass's input, it also fails at the corresponding
position of the output, where the text after the shared prefix has been
replaced by `Text("k".localized)` followed by further output. -/
theorem matchAfterHead_transfer {v5 : List Char} {k : String} {O y5 : List Char}
    (hk : SafeKey k)
    (hnone : matchAfterHead (v5 ++ ("Text(".data ++ y5)) = none) :
    matchAfterHead (v5 ++ (replText k ++ O)) = none := by
  have hoT : replText k ++ O =
      'T' :: ('e' :: 'x' :: 't' :: '(' :: '"' ::
        (k.data ++ ("\".localized)".data ++ O))) := by
    unfold replText
    simp
  have hmarkO : "\".localized)".data ++ O = '"' :: ('.' :: ("localized)".data ++ O)) := rfl
  cases hv : v5.dropWhile pyIsSpace with
  | nil =>
    unfold matchAfterHead
    rw [dropWhile_append_dropWhile, hv, List.nil_append, hoT, dropWhile_cons_neg (by decide)]
    split
    · rename_i r2 heq
      exact absurd heq (by simp)
    · rfl
  | cons h0 v5'' =>
    have h0ns : pyIsSpace h0 = false := by
      apply dropWhile_head_not pyIsSpace v5
      rw [hv]
      rfl
    by_cases hq : h0 = '"'
    · subst hq
      rcases litBody_rest_shape v5'' with hsh | hsh | ⟨r0, hsh⟩ | ⟨r0, hsh⟩
      · -- the literal body crosses cleanly into the replacement
        have hlit : litBody (v5'' ++ (replText k ++ O)) =
            ((litBody v5'').1 ++ 'T' :: 'e' :: 'x' :: 't' :: '(' :: [],
              '"' :: (k.data ++ ("\".localized)".data ++ O))) := by
          rw [hoT, litBody_append_all hsh, litBody_consume (by decide) (by decide),
            litBody_replText_tail]
        unfold matchAfterHead
        rw [dropWhile_append_dropWhile, hv, List.cons_append, dropWhile_cons_neg (by decide)]
        split
        · rename_i r2 heq
          have hr2 : r2 = v5'' ++ (replText k ++ O) := by
            injection heq with _ h
            exact h.symm
          subst hr2
          rw [hlit]
          dsimp only
          rw [if_neg (by simp)]
          split
          · rename_i r4 heq2
            have hr4 : r4 = k.data ++ ("\".localized)".data ++ O) := by
              injection heq2 with _ h
              exact h.symm
            subst hr4
            split
            · rename_i r6 heq3
              exfalso
              rw [hmarkO] at heq3
              exact paren_match_fails
                (fun c hc => ⟨(hk c hc).2.2.2.2, (hk c hc).2.2.2.1⟩) heq3
            · rfl
          · rename_i hno
            exact absurd rfl (hno _)
        · rename_i hno
          exact absurd rfl (hno _)
      · -- the body region ends in a lone backslash that pairs with the `T`
        have hlit : litBody (v5'' ++ (replText k ++ O)) =
            ((litBody v5'').1 ++ '\\' :: 'T' :: 'e' :: 'x' :: 't' :: '(' :: [],
              '"' :: (k.data ++ ("\".localized)".data ++ O))) := by
          rw [hoT]
          rw [(litBody_append_bs hsh).2.2 'T'
            ('e' :: 'x' :: 't' :: '(' :: '"' :: (k.data ++ ("\".localized)".data ++ O)))
            (by decide), litBody_replText_tail]
        unfold matchAfterHead
        rw [dropWhile_append_dropWhile, hv, List.cons_append, dropWhile_cons_neg (by decide)]
        split
        · rename_i r2 heq
          have hr2 : r2 = v5'' ++ (replText k ++ O) := by
            injection heq with _ h
            exact h.symm
          subst hr2
          rw [hlit]
          dsimp only
          rw [if_neg (by simp)]
          split
          · rename_i r4 heq2
            have hr4 : r4 = k.data ++ ("\".localized)".data ++ O) := by
              injection heq2 with _ h
              exact h.symm
            subst hr4
            split
            · rename_i r6 heq3
              exfalso
              rw [hmarkO] at heq3
              exact paren_match_fails
                (fun c hc => ⟨(hk c hc).2.2.2.2, (hk c hc).2.2.2.1⟩) heq3
            · rfl
          · rename_i hno
            exact absurd rfl (hno _)
        · rename_i hno
          exact absurd rfl (hno _)
      · -- the body region stops at a quote inside the shared prefix
        by_cases hB : (litBody v5'').1 = []
        · unfold matchAfterHead
          rw [dropWhile_append_dropWhile, hv, List.cons_append, dropWhile_cons_neg (by decide)]
          split
          · rename_i r2 heq
            have hr2 : r2 = v5'' ++ (replText k ++ O) := by
              injection heq with _ h
              exact h.symm
            subst hr2
            rw [litBody_append_stop (Or.inl ⟨r0, hsh⟩) _]
            dsimp only
            rw [if_pos hB]
          · rename_i hno
            exact absurd rfl (hno _)
        · cases hr0 : r0.dropWhile pyIsSpace with
          | nil =>
            -- all of r0 is whitespace; the `)` test hits the replacement's `T`
            unfold matchAfterHead
            rw [dropWhile_append_dropWhile, hv, List.cons_append,
              dropWhile_cons_neg (by decide)]
            split
            · rename_i r2 heq
              have hr2 : r2 = v5'' ++ (replText k ++ O) := by
                injection heq with _ h
                exact h.symm
              subst hr2
              rw [litBody_append_stop (Or.inl ⟨r0, hsh⟩) _, hsh]
              dsimp only
              rw [if_neg hB]
              split
              · rename_i r4 heq2
                have hr4 : r4 = r0 ++ (replText k ++ O) := by
                  injection heq2 with _ h
                  exact h.symm
                subst hr4
                split
                · rename_i r6 heq3
                  exfalso
                  rw [dropWhile_append_dropWhile, hr0, List.nil_append, hoT,
                    dropWhile_cons_neg (by decide)] at heq3
                  simp at heq3
                · rfl
              · rename_i hno
                exact absurd rfl (hno _)
            · rename_i hno
              exact absurd rfl (hno _)
          | cons g0 r0'' =>
            have g0ns : pyIsSpace g0 = false := by
              apply dropWhile_head_not pyIsSpace r0
              rw [hr0]
              rfl
            by_cases hg : g0 = ')'
            · subst hg
              have hdY := matchAfterHead_deep hv hsh hB hr0 ("Text(".data ++ y5)
              have hdO := matchAfterHead_deep hv hsh hB hr0 (replText k ++ O)
              have hlook_y : lookLocalized (r0'' ++ ("Text(".data ++ y5)) = true := by
                by_contra hc
                have hsome := hdY.2 (Bool.eq_false_iff.mpr hc)
                rw [hnone] at hsome
                exact absurd hsome (by simp)
              have hpair := lookLocalized_T_pair r0'' (replText k ++ O)
                ("Text(".data ++ y5) _ _ hoT rfl
              exact hdO.1 (hpair.trans hlook_y)
            · -- the character after the spaces is not `)`
              unfold matchAfterHead
              rw [dropWhile_append_dropWhile, hv, List.cons_append,
                dropWhile_cons_neg (by decide)]
              split
              · rename_i r2 heq
                have hr2 : r2 = v5'' ++ (replText k ++ O) := by
                  injection heq with _ h
                  exact h.symm
                subst hr2
                rw [litBody_append_stop (Or.inl ⟨r0, hsh⟩) _, hsh]
                dsimp only
                rw [if_neg hB]
                split
                · rename_i r4 heq2
                  have hr4 : r4 = r0 ++ (replText k ++ O) := by
                    injection heq2 with _ h
                    exact h.symm
                  subst hr4
                  split
                  · rename_i r6 heq3
                    exfalso
                    rw [dropWhile_append_dropWhile, hr0, List.cons_append,
                      dropWhile_cons_neg g0ns] at heq3
                    simp only [List.cons.injEq] at heq3
                    exact hg heq3.1
                  · rfl
                · rename_i hno
                  exact absurd rfl (hno _)
              · rename_i hno
                exact absurd rfl (hno _)
      · -- the body region is stuck at a backslash-newline inside the prefix
        unfold matchAfterHead
        rw [dropWhile_append_dropWhile, hv, List.cons_append, dropWhile_cons_neg (by decide)]
        split
        · rename_i r2 heq
          have hr2 : r2 = v5'' ++ (replText k ++ O) := by
            injection heq with _ h
            exact h.symm
          subst hr2
          rw [litBody_append_stop (Or.inr ⟨r0, hsh⟩) _, hsh]
          dsimp only
          by_cases hB : (litBody v5'').1 = []
          · rw [if_pos hB]
          · rw [if_neg hB]
            split
            · rename_i r4 heq2
              exact absurd heq2 (by simp)
            · rfl
        · rename_i hno
          exact absurd rfl (hno _)
    · -- head after the spaces is not a quote
      unfold matchAfterHead
      rw [dropWhile_append_dropWhile, hv, List.cons_append, dropWhile_cons_neg h0ns]
      split
      · rename_i r2 heq
        injection heq with h1 _
        exact absurd h1 hq
      · rfl

/-- Decomposition of a scan's output: a verbatim block (copied characters
and re-emitted skip matches), followed either by nothing or by the first
replacement segment and further output. -/
theorem scan_decomp (vk : Dict) (hvk : ∀ p ∈ vk, SafeKey p.2) :
    ∀ (n : Nat) (x : List Char), x.length ≤ n → ∀ st : PState,
    ∃ v y o₂, x = v ++ y ∧ (scanChars vk x st).1 = v ++ o₂ ∧
      ((y = [] ∧ o₂ = []) ∨
       (∃ k O y5, SafeKey k ∧ o₂ = replText k ++ O ∧ y = "Text(".data ++ y5)) := by
  intro n
  induction n with
  | zero =>
    intro x h st
    match x with
    | [] => exact ⟨[], [], [], rfl, by simp [scanChars_nil], Or.inl ⟨rfl, rfl⟩⟩
  | succ n ih =>
    intro x h st
    match x with
    | [] => exact ⟨[], [], [], rfl, by simp [scanChars_nil], Or.inl ⟨rfl, rfl⟩⟩
    | c :: cs =>
      cases hm : matchAt (c :: cs) with
      | none =>
        obtain ⟨v, y, o₂, hx, hs, hcase⟩ := ih cs (by simp at h ⊢; omega) st
        refine ⟨c :: v, y, o₂, by rw [List.cons_append, ← hx], ?_, hcase⟩
        rw [scanChars_cons_none hm]
        dsimp only
        rw [hs, List.cons_append]
      | some x0 =>
        match x0 with
        | (w, bd, rest) =>
          rcases replOcc_cases vk hvk w bd st with ⟨hskip, hrepl⟩ | ⟨k, hks, hrepl⟩
          · obtain ⟨v, y, o₂, hx, hs, hcase⟩ := ih rest
              (by have hlen := matchAt_rest_length hm; simp at h hlen ⊢; omega) st
            refine ⟨w ++ v, y, o₂, ?_, ?_, hcase⟩
            · rw [(matchAt_decomp hm).1, hx]
              simp
            · rw [scanChars_cons_some hm, hrepl]
              dsimp only
              rw [hs]
              simp
          · obtain ⟨w0, hw, hl, _⟩ := matchAt_inv hm
            refine ⟨[], c :: cs, (replOcc vk w bd st).1 ++
              (scanChars vk rest (replOcc vk w bd st).2).1, by simp, ?_,
              Or.inr ⟨k, (scanChars vk rest (replOcc vk w bd st).2).1, (c :: cs).drop 5,
                hks, by rw [hrepl], hl⟩⟩
            rw [scanChars_cons_some hm]
            simp

/-- If the pattern does not match at the start of the input, it does not
match at the start of the scan's output either. -/
theorem matchAt_scan_none (vk : Dict) (hvk : ∀ p ∈ vk, SafeKey p.2)
    (x : List Char) (st : PState) (hm : matchAt x = none) :
    matchAt ((scanChars vk x st).1) = none := by
  obtain ⟨v, y, o₂, hx, hout, hcase⟩ := scan_decomp vk hvk x.length x (Nat.le_refl _) st
  rw [hout]
  rcases hcase with ⟨hy, ho⟩ | ⟨k, O, y5, hks, ho, hy⟩
  · subst hy
    subst ho
    rw [List.append_nil] at hx
    rw [List.append_nil, ← hx]
    exact hm
  · subst ho
    subst hy
    rw [hx] at hm
    match v with
    | [] =>
      rw [List.nil_append] at hm ⊢
      unfold matchAt
      split
      · have hd5 : (replText k ++ O).drop 5 =
            '"' :: (k.data ++ ('"' :: '.' :: ("localized)".data ++ O))) := by
          unfold replText
          simp
        rw [hd5, matchAfterHead_quote_key (fun c hc => ⟨(hks c hc).1, (hks c hc).2.1⟩) _]
      · rfl
    | [a] =>
      unfold matchAt
      rw [if_neg]
      intro hpre
      rw [List.isPrefixOf_iff_prefix] at hpre
      rcases hpre with ⟨r, hr⟩
      have hsh : replText k ++ O =
          'T' :: ('e' :: 'x' :: 't' :: '(' :: '"' ::
            (k.data ++ ("\".localized)".data ++ O))) := by
        unfold replText
        simp
      rw [hsh] at hr
      simp [List.cons_append] at hr
    | [a, b] =>
      unfold matchAt
      rw [if_neg]
      intro hpre
      rw [List.isPrefixOf_iff_prefix] at hpre
      rcases hpre with ⟨r, hr⟩
      have hsh : replText k ++ O =
          'T' :: ('e' :: 'x' :: 't' :: '(' :: '"' ::
            (k.data ++ ("\".localized)".data ++ O))) := by
        unfold replText
        simp
      rw [hsh] at hr
      simp [List.cons_append] at hr
    | [a, b, c] =>
      unfold matchAt
      rw [if_neg]
      intro hpre
      rw [List.isPrefixOf_iff_prefix] at hpre
      rcases hpre with ⟨r, hr⟩
      have hsh : replText k ++ O =
          'T' :: ('e' :: 'x' :: 't' :: '(' :: '"' ::
            (k.data ++ ("\".localized)".data ++ O))) := by
        unfold replText
        simp
      rw [hsh] at hr
      simp [List.cons_append] at hr
    | [a, b, c, d] =>
      unfold matchAt
      rw [if_neg]
      intro hpre
      rw [List.isPrefixOf_iff_prefix] at hpre
      rcases hpre with ⟨r, hr⟩
      have hsh : replText k ++ O =
          'T' :: ('e' :: 'x' :: 't' :: '(' :: '"' ::
            (k.data ++ ("\".localized)".data ++ O))) := by
        unfold replText
        simp
      rw [hsh] at hr
      simp [List.cons_append] at hr
    | a :: b :: c :: d :: e :: v5 =>
      by_cases hpre :
          ("Text(".data.isPrefixOf ((a :: b :: c :: d :: e :: v5) ++ (replText k ++ O))) = true
      · have hchars : a = 'T' ∧ b = 'e' ∧ c = 'x' ∧ d = 't' ∧ e = '(' := by
          rw [List.isPrefixOf_iff_prefix] at hpre
          rcases hpre with ⟨r, hr⟩
          simp only [show "Text(".data = 'T' :: 'e' :: 'x' :: 't' :: '(' :: ([] : List Char)
            from rfl, List.cons_append, List.nil_append, List.cons.injEq] at hr
          exact ⟨hr.1.symm, hr.2.1.symm, hr.2.2.1.symm, hr.2.2.2.1.symm, hr.2.2.2.2.1.symm⟩
        obtain ⟨rfl, rfl, rfl, rfl, rfl⟩ := hchars
        have hpreY : ("Text(".data.isPrefixOf
            (('T' :: 'e' :: 'x' :: 't' :: '(' :: v5) ++ ("Text(".data ++ y5))) = true := by
          simp [isPrefixOf_cons₂, isPrefixOf_nil_left]
        have hm5 : matchAfterHead (v5 ++ ("Text(".data ++ y5)) = none := by
          unfold matchAt at hm
          rw [if_pos hpreY] at hm
          cases hmah : matchAfterHead
              ((('T' :: 'e' :: 'x' :: 't' :: '(' :: v5) ++ ("Text(".data ++ y5)).drop 5) with
          | none =>
            have hd5 : (('T' :: 'e' :: 'x' :: 't' :: '(' :: v5) ++
                ("Text(".data ++ y5)).drop 5 = v5 ++ ("Text(".data ++ y5) := rfl
            rw [hd5] at hmah
            exact hmah
          | some z =>
            rw [hmah] at hm
            match z with
            | (w0, b0, r0) => exact absurd hm (by simp)
        unfold matchAt
        rw [if_pos hpre]
        have hd5 : (('T' :: 'e' :: 'x' :: 't' :: '(' :: v5) ++ (replText k ++ O)).drop 5 =
            v5 ++ (replText k ++ O) := rfl
        rw [hd5, matchAfterHead_transfer hks hm5]
      · unfold matchAt
        rw [if_neg hpre]

theorem isPrefixOf_append_self (p t : List Char) : p.isPrefixOf (p ++ t) = true := by
  rw [List.isPrefixOf_iff_prefix]
  exact List.prefix_append p t

/-- Forward computation of a full successful parse after `Text(`. -/
theorem matchAfterHead_intro {sp1 sp2 bd O : List Char}
    (hsp1 : ∀ c ∈ sp1, pyIsSpace c = true) (hsp2 : ∀ c ∈ sp2, pyIsSpace c = true)
    (hrt : ∀ Z, litBody (bd ++ '"' :: Z) = (bd, '"' :: Z)) (hne : bd ≠ [])
    (hlook : lookLocalized O = false) :
    matchAfterHead (sp1 ++ '"' :: (bd ++ '"' :: (sp2 ++ ')' :: O))) =
      some (sp1 ++ '"' :: bd ++ '"' :: sp2 ++ [')'], bd, O) := by
  have hdw : (sp1 ++ '"' :: (bd ++ '"' :: (sp2 ++ ')' :: O))).dropWhile pyIsSpace
      = '"' :: (bd ++ '"' :: (sp2 ++ ')' :: O)) := by
    rw [dropWhile_all_append hsp1, dropWhile_cons_neg (by decide)]
  have htw : (sp1 ++ '"' :: (bd ++ '"' :: (sp2 ++ ')' :: O))).takeWhile pyIsSpace = sp1 := by
    rw [takeWhile_all_append hsp1, takeWhile_cons_neg (by decide), List.append_nil]
  have hdw2 : (sp2 ++ ')' :: O).dropWhile pyIsSpace = ')' :: O := by
    rw [dropWhile_all_append hsp2, dropWhile_cons_neg (by decide)]
  have htw2 : (sp2 ++ ')' :: O).takeWhile pyIsSpace = sp2 := by
    rw [takeWhile_all_append hsp2, takeWhile_cons_neg (by decide), List.append_nil]
  unfold matchAfterHead
  rw [hdw]
  split
  · rename_i r2 heq
    have hr2 : r2 = bd ++ '"' :: (sp2 ++ ')' :: O) := by
      injection heq with _ h
      exact h.symm
    subst hr2
    rw [hrt (sp2 ++ ')' :: O)]
    dsimp only
    rw [if_neg hne]
    split
    · rename_i r4 heq2
      have hr4 : r4 = sp2 ++ ')' :: O := by
        injection heq2 with _ h
        exact h.symm
      subst hr4
      rw [hdw2]
      split
      · rename_i r6 heq3
        have hr6 : r6 = O := by
          injection heq3 with _ h
          exact h.symm
        subst hr6
        rw [if_neg (by simp [hlook]), htw, htw2]
      · rename_i hno
        exact absurd rfl (hno O)
    · rename_i hno
      exact absurd rfl (hno (sp2 ++ ')' :: O))
  · rename_i hno
    exact absurd rfl (hno (bd ++ '"' :: (sp2 ++ ')' :: O)))

/-- A matched occurrence that is re-emitted verbatim (a skip) matches again
at the same position in the output, with the same group, provided the
following text still fails the lookahead. -/
theorem matchAt_rematch {x w bd rest O : List Char}
    (hm : matchAt x = some (w, bd, rest)) (hlookO : lookLocalized O = false) :
    matchAt (w ++ O) = some (w, bd, O) := by
  obtain ⟨w0, hw, hl, hmah⟩ := matchAt_inv hm
  obtain ⟨sp1, sp2, r2x, hsp1, hsp2, hr0, hlit, hne, hlookR, hw0⟩ := matchAfterHead_inv hmah
  have hbd1 : bd = (litBody r2x).1 := by rw [hlit]
  have hrt : ∀ Z, litBody (bd ++ '"' :: Z) = (bd, '"' :: Z) := by
    intro Z
    rw [hbd1]
    exact litBody_roundtrip r2x Z
  have hshape : w ++ O = "Text(".data ++ (sp1 ++ '"' :: (bd ++ '"' :: (sp2 ++ ')' :: O))) := by
    rw [hw, hw0]
    simp
  have hdrop : ∀ Z : List Char, ("Text(".data ++ Z).drop 5 = Z := fun Z =>
    List.drop_left "Text(".data Z
  rw [hshape]
  unfold matchAt
  rw [if_pos (isPrefixOf_append_self _ _), hdrop,
    matchAfterHead_intro hsp1 hsp2 hrt hne hlookO, ← hw0]
  dsimp only
  rw [← hw]

/-- Core idempotence: a second scan of a first scan's output, against any
reuse map and any state, copies the output verbatim and leaves the second
state untouched, provided the first reuse map's keys are safe. -/
theorem scan_idem_aux (vk vk₂ : Dict) (hvk : ∀ p ∈ vk, SafeKey p.2) :
    ∀ (n : Nat) (x : List Char), x.length ≤ n → ∀ (st st₂ : PState),
    scanChars vk₂ ((scanChars vk x st).1) st₂ = ((scanChars vk x st).1, st₂) := by
  intro n
  induction n with
  | zero =>
    intro x h st st₂
    match x with
    | [] =>
      rw [scanChars_nil]
      exact scanChars_nil vk₂ st₂
  | succ n ih =>
    intro x h st st₂
    match x with
    | [] =>
      rw [scanChars_nil]
      exact scanChars_nil vk₂ st₂
    | c :: cs =>
      cases hm : matchAt (c :: cs) with
      | none =>
        have hm2 : matchAt (c :: (scanChars vk cs st).1) = none := by
          have h0 := matchAt_scan_none vk hvk (c :: cs) st hm
          rwa [scanChars_cons_none hm] at h0
        rw [scanChars_cons_none hm]
        dsimp only
        rw [scanChars_cons_none hm2]
        rw [ih cs (by simp at h ⊢; omega) st st₂]
      | some x0 =>
        match x0 with
        | (w, bd, rest) =>
          have hlen := matchAt_rest_length hm
          have hrest : rest.length ≤ n := by simp at h hlen ⊢; omega
          rcases replOcc_cases vk hvk w bd st with ⟨hskip, hrepl⟩ | ⟨k, hks, hrepl⟩
          · obtain ⟨w0, hw, hl, hmah⟩ := matchAt_inv hm
            obtain ⟨sp1, sp2, r2x, _, _, _, _, _, hlookR, _⟩ := matchAfterHead_inv hmah
            have hlookO : lookLocalized ((scanChars vk rest st).1) = false := by
              rw [lookLocalized_scan vk rest.length rest (Nat.le_refl _) st]
              exact hlookR
            have hm2 := matchAt_rematch hm hlookO
            have hne : w ≠ [] := (matchAt_decomp hm).2
            rcases List.exists_cons_of_ne_nil hne with ⟨a, w1, rfl⟩
            rw [scanChars_cons_some hm, hrepl]
            dsimp only
            rw [List.cons_append] at hm2 ⊢
            rw [scanChars_cons_some hm2]
            have hrepl2 : replOcc vk₂ (a :: w1) bd st₂ = (a :: w1, st₂) := by
              unfold replOcc
              rw [if_pos hskip]
            rw [hrepl2]
            dsimp only
            rw [ih rest hrest st st₂]
            simp
          · rw [scanChars_cons_some hm]
            dsimp only
            rw [hrepl, scanChars_replText vk₂ hks _ st₂,
              ih rest hrest (replOcc vk w bd st).2 st₂]

/-- Unfolding equation for `process_swift` in terms of the scanner. -/
theorem process_swift_eq (content : String) (vk : Dict) (ek : List String) (ad : Dict) :
    process_swift content vk ek ad =
      (⟨(scanChars vk content.data ⟨ek, ad⟩).1⟩,
       (scanChars vk content.data ⟨ek, ad⟩).2.existing_keys,
       (scanChars vk content.data ⟨ek, ad⟩).2.additions) := by
  unfold process_swift scanChars
  rcases hsc : scanGo vk content.data.length content.data ⟨ek, ad⟩ with ⟨out, st⟩
  rfl

/-- C2: The rewrite is idempotent. Provided every key of the pre-existing
reuse map is safe (no quote, backslash, parenthesis or whitespace
character — as the data model's dotted lowercase identifiers are), running
the engine a second time on the first run's output, against any reuse map,
key set and pending-additions map (in particular the first run's newly
minted entries folded into the table), returns the output byte-identical
and records no new keys and no additions: the `.localized` marker prevents
every rewritten occurrence from matching again, and skipped occurrences
match again but are skipped again. -/
theorem process_swift_idempotent (content : String) (vk : Dict)
    (hvk : ∀ p ∈ vk, SafeKey p.2) (ek : List String) (ad : Dict)
    (vk₂ : Dict) (ek₂ : List String) (ad₂ : Dict) :
    process_swift (process_swift content vk ek ad).1 vk₂ ek₂ ad₂ =
      ((process_swift content vk ek ad).1, ek₂, ad₂) := by
  rw [process_swift_eq content vk ek ad, process_swift_eq]
  dsimp only
  rw [scan_idem_aux vk vk₂ hvk content.data.length content.data (Nat.le_refl _)
    ⟨ek, ad⟩ ⟨ek₂, ad₂⟩]

theorem process_swift_idempotent_witness :
    process_swift (process_swift "Text(\"Hi\") Text(\"Score: %d\")"
        [("Hi", "greet")] [] []).1 [("Hi", "greet")] [] [] =
      ((process_swift "Text(\"Hi\") Text(\"Score: %d\")" [("Hi", "greet")] [] []).1,
       [], []) :=
  process_swift_idempotent "Text(\"Hi\") Text(\"Score: %d\")" [("Hi", "greet")]
    (by unfold SafeKey; decide) [] [] [("Hi", "greet")] [] []
